import Mathlib

/-!
Shallow embedding of the marketscrape-web matching-and-ranking core
(`scraper/shop_class.py`, `scraper/utils.py`) and proofs about it.

Python strings are modelled as `List Char`, floats as `ℚ` (as `ℝ` where the
source applies a transcendental function), dictionaries as association lists
in insertion order, and raised exceptions as `Except` errors.
-/

namespace Marketscrape

/-- Modelled from the spec: the `scraper.exceptions` module is not present
under `src/`; §7 of the spec names the error conditions raised by the core
(`InvalidInput` split by the importing code into data-format and threshold
variants, `NoViableCandidates`, and the upstream request failure). -/
inductive ScrapeError where
  | invalidDataFormat
  | invalidSimilarityThreshold
  | noProductsFound
  | scraperRequestError
  deriving DecidableEq

deriving instance DecidableEq for Except

/-! ### Python text primitives -/

/-- `str.lower()` restricted to its ASCII behaviour. -/
def pyLower (s : List Char) : List Char :=
  s.map Char.toLower

/-- `str.strip()`: remove leading and trailing whitespace. -/
def pyStrip (s : List Char) : List Char :=
  ((s.dropWhile Char.isWhitespace).reverse.dropWhile Char.isWhitespace).reverse

/-- `string.punctuation`: the 32 ASCII punctuation characters, given by
code point (33–47, 58–64, 91–96, 123–126). -/
def pythonPunctuation : List Char :=
  ([33, 34, 35, 36, 37, 38, 39, 40, 41, 42, 43, 44, 45, 46, 47,
    58, 59, 60, 61, 62, 63, 64, 91, 92, 93, 94, 95, 96,
    123, 124, 125, 126].map Char.ofNat)

/-- `str.translate(str.maketrans("", "", string.punctuation))`: delete all
punctuation characters. -/
def removePunctuation (s : List Char) : List Char :=
  s.filter (fun c => !(pythonPunctuation.contains c))

/-! ### `difflib.SequenceMatcher` (as called with `isjunk=None`, `autojunk=True`)

The scraper computes text similarity through the standard library's
`SequenceMatcher`.  The block-matching algorithm is reproduced below:
`b2j` with the popular-element (autojunk) heuristic, the
`find_longest_match` dynamic program with its four extension loops, the
stack-driven `get_matching_blocks`, and `ratio`. -/

/-- All indices `j` with `b[j] = c`, in increasing order (the `b2j`
dictionary before junk removal). -/
def b2jRaw (b : List Char) (c : Char) : List Nat :=
  (List.range b.length).filter (fun j => decide (b.getD j ' ' = c))

/-- The autojunk heuristic: when `b` has at least 200 elements, an element
occurring more than `len(b) // 100 + 1` times is "popular". -/
def isPopular (b : List Char) (c : Char) : Bool :=
  decide (200 ≤ b.length) && decide (b.length / 100 + 1 < (b2jRaw b c).length)

/-- The `b2j` dictionary after popular elements are deleted. -/
def b2j (b : List Char) (c : Char) : List Nat :=
  if isPopular b c then [] else b2jRaw b c

/-- Inner loop of `find_longest_match` over the candidate `j` positions of
`b2j[a[i]]`: `j < blo` is skipped, `j >= bhi` stops the loop, and otherwise
`newj2len[j] = j2len.get(j-1, 0) + 1` is recorded and the best block is
updated when the new run is strictly longer.  (`j2len.get(-1, 0)` is `0`,
rendered by the `j = 0` test.) -/
def flmInner (i blo bhi : Nat) (j2len : Nat → Nat) :
    List Nat → (Nat → Nat) → Nat × Nat × Nat → (Nat → Nat) × (Nat × Nat × Nat)
  | [], newj2len, best => (newj2len, best)
  | j :: js, newj2len, best =>
    if j < blo then flmInner i blo bhi j2len js newj2len best
    else if bhi ≤ j then (newj2len, best)
    else
      -- In Python `k = j2len.get(j-1, 0) + 1`; best-updates use `i-k+1` and
      -- `j-k+1`, which never go below `alo`/`blo` (so the `Nat` subtraction
      -- below is exact on reachable states).
      let k := (if j = 0 then 0 else j2len (j - 1)) + 1
      let newj2len' := fun x => if x = j then k else newj2len x
      let best' := if best.2.2 < k then (i + 1 - k, j + 1 - k, k) else best
      flmInner i blo bhi j2len js newj2len' best'

/-- Outer loop of `find_longest_match` over `i in range(alo, ahi)`. -/
def flmOuter (a b : List Char) (blo bhi : Nat) :
    List Nat → (Nat → Nat) → Nat × Nat × Nat → Nat × Nat × Nat
  | [], _, best => best
  | i :: is, j2len, best =>
    let step := flmInner i blo bhi j2len (b2j b (a.getD i ' ')) (fun _ => 0) best
    flmOuter a b blo bhi is step.1 step.2

/-- Backward extension loop of `find_longest_match`:
`while besti > alo and bestj > blo and isbjunk(b[bestj-1]) == wantJunk and
a[besti-1] == b[bestj-1]`.  Structural recursion on `besti`. -/
def extendBack (a b : List Char) (junk : Char → Bool) (alo blo : Nat)
    (wantJunk : Bool) : Nat → Nat → Nat → Nat × Nat × Nat
  | 0, bestj, bestsize => (0, bestj, bestsize)
  | bi + 1, bestj, bestsize =>
    if alo < bi + 1 ∧ blo < bestj ∧ junk (b.getD (bestj - 1) ' ') = wantJunk ∧
        a.getD bi ' ' = b.getD (bestj - 1) ' ' then
      extendBack a b junk alo blo wantJunk bi (bestj - 1) (bestsize + 1)
    else (bi + 1, bestj, bestsize)

/-- Forward extension loop of `find_longest_match`:
`while besti+bestsize < ahi and bestj+bestsize < bhi and
isbjunk(b[bestj+bestsize]) == wantJunk and
a[besti+bestsize] == b[bestj+bestsize]: bestsize += 1`.
The recursion is driven by the exact step count `bhi - (bestj + bestsize)`:
when it reaches `0` the condition `bestj + bestsize < bhi` is false, so the
early return agrees with the loop's own exit. -/
def extendFwdAux (a b : List Char) (junk : Char → Bool) (ahi bhi : Nat)
    (wantJunk : Bool) (besti bestj : Nat) : Nat → Nat → Nat
  | 0, bestsize => bestsize
  | gas + 1, bestsize =>
    if besti + bestsize < ahi ∧ bestj + bestsize < bhi ∧
        junk (b.getD (bestj + bestsize) ' ') = wantJunk ∧
        a.getD (besti + bestsize) ' ' = b.getD (bestj + bestsize) ' ' then
      extendFwdAux a b junk ahi bhi wantJunk besti bestj gas (bestsize + 1)
    else bestsize

/-- Forward extension of a block (see `extendFwdAux`). -/
def extendFwd (a b : List Char) (junk : Char → Bool) (ahi bhi : Nat)
    (wantJunk : Bool) (besti bestj bestsize : Nat) : Nat × Nat × Nat :=
  (besti, bestj,
    extendFwdAux a b junk ahi bhi wantJunk besti bestj
      (bhi - (bestj + bestsize)) bestsize)

/-- `SequenceMatcher.find_longest_match` on `a[alo:ahi]`, `b[blo:bhi]`:
the `j2len` dynamic program followed by the four extension passes
(non-junk backward/forward, then junk backward/forward). -/
def find_longest_match (a b : List Char) (junk : Char → Bool)
    (alo ahi blo bhi : Nat) : Nat × Nat × Nat :=
  let bestDP := flmOuter a b blo bhi (List.range' alo (ahi - alo))
    (fun _ => 0) (alo, blo, 0)
  let e1 := extendBack a b junk alo blo false bestDP.1 bestDP.2.1 bestDP.2.2
  let e2 := extendFwd a b junk ahi bhi false e1.1 e1.2.1 e1.2.2
  let e3 := extendBack a b junk alo blo true e2.1 e2.2.1 e2.2.2
  extendFwd a b junk ahi bhi true e3.1 e3.2.1 e3.2.2

/-- A matching block `(i, j, size)` as produced by `get_matching_blocks`. -/
structure MatchBlock where
  a : Nat
  b : Nat
  size : Nat
  deriving DecidableEq

/-- The queue loop of `get_matching_blocks`.  `queue.pop()` takes the most
recently pushed range, so the queue is a stack with its top at the head.
Each iteration consumes one unit of fuel; the top-level call supplies
`2 * len(a) + 1` units, which dominates the loop's decreasing measure
`sum (2 * (ahi - alo)) + length queue` (a split at a block of size `k ≥ 1`
replaces `2*(ahi-alo) + 1` by at most `2*(ahi-alo) - 2k + 2`), so the
fuel-exhaustion branch is unreachable from `get_matching_blocks`. -/
def gmbAux (a b : List Char) (junk : Char → Bool) :
    Nat → List (Nat × Nat × Nat × Nat) → List MatchBlock → List MatchBlock
  | _, [], acc => acc
  | 0, _, acc => acc
  | fuel + 1, (alo, ahi, blo, bhi) :: rest, acc =>
    let m := find_longest_match a b junk alo ahi blo bhi
    if m.2.2 = 0 then gmbAux a b junk fuel rest acc
    else gmbAux a b junk fuel
      ((m.1 + m.2.2, ahi, m.2.1 + m.2.2, bhi) :: (alo, m.1, blo, m.2.1) :: rest)
      (⟨m.1, m.2.1, m.2.2⟩ :: acc)

/-- Lexicographic order on block triples, as used by `matching_blocks.sort()`. -/
def blockLe (x y : MatchBlock) : Bool :=
  decide (x.a < y.a) || (decide (x.a = y.a) &&
    (decide (x.b < y.b) || (decide (x.b = y.b) && decide (x.size ≤ y.size))))

/-- Insert into a lexicographically sorted block list. -/
def insertBlock (x : MatchBlock) : List MatchBlock → List MatchBlock
  | [] => [x]
  | y :: ys => if blockLe x y then x :: y :: ys else y :: insertBlock x ys

/-- `list.sort()` on block triples (insertion sort; the order is total, so
the result agrees with any stable sort). -/
def sortBlocks : List MatchBlock → List MatchBlock
  | [] => []
  | x :: xs => insertBlock x (sortBlocks xs)

/-- The adjacent-block coalescing pass of `get_matching_blocks`, followed by
the `(la, lb, 0)` sentinel. -/
def mergeAdjAux (la lb : Nat) : Nat → Nat → Nat → List MatchBlock → List MatchBlock
  | i1, j1, k1, [] =>
    (if k1 ≠ 0 then [⟨i1, j1, k1⟩] else []) ++ [⟨la, lb, 0⟩]
  | i1, j1, k1, x :: rest =>
    if i1 + k1 = x.a ∧ j1 + k1 = x.b then mergeAdjAux la lb i1 j1 (k1 + x.size) rest
    else (if k1 ≠ 0 then [⟨i1, j1, k1⟩] else []) ++ mergeAdjAux la lb x.a x.b x.size rest

/-- `SequenceMatcher.get_matching_blocks`. -/
def get_matching_blocks (a b : List Char) (junk : Char → Bool) : List MatchBlock :=
  let la := a.length
  let lb := b.length
  let blocks := gmbAux a b junk (2 * la + 1) [(0, la, 0, lb)] []
  mergeAdjAux la lb 0 0 0 (sortBlocks blocks)

/-- `difflib._calculate_ratio`. -/
def calculateRatio (matchTotal length : Nat) : ℚ :=
  if length ≠ 0 then 2 * (matchTotal : ℚ) / (length : ℚ) else 1

/-- `SequenceMatcher(None, a, b).ratio()`. -/
def sequenceMatcherRatio (a b : List Char) : ℚ :=
  calculateRatio (((get_matching_blocks a b (fun _ => false)).map
    (fun blk => blk.size)).sum) (a.length + b.length)

/-- `EbayScraper.get_similarity` (`shop_class.py:86`): lowercase and strip
both strings, delete punctuation, and return the `SequenceMatcher` ratio. -/
def get_similarity (string1 string2 : List Char) : ℚ :=
  let string1' := pyStrip (pyLower string1)
  let string2' := pyStrip (pyLower string2)
  let string1_clean := removePunctuation string1'
  let string2_clean := removePunctuation string2'
  sequenceMatcherRatio string1_clean string2_clean

/-! ### `utils.clean_text` (`utils.py:33`) -/

/-- A character matched by the regex class `[A-Za-z0-9\s]`: `Char.isAlpha`
and `Char.isDigit` are exactly the ASCII classes `A-Za-z` and `0-9`. -/
def isAlnumOrSpace (c : Char) : Bool :=
  c.isAlpha || c.isDigit || c.isWhitespace

/-- `re.sub(r"[^A-Za-z0-9\s]+", " ", ·)`: each maximal run of characters
outside the class becomes a single space. -/
def collapseNonAlnum : List Char → List Char
  | [] => []
  | c :: cs =>
    if isAlnumOrSpace c then c :: collapseNonAlnum cs
    else ' ' :: collapseNonAlnum (cs.dropWhile (fun d => !isAlnumOrSpace d))
  termination_by l => l.length
  decreasing_by
  · simp only [List.length_cons]
    omega
  · simp only [List.length_cons]
    have := (List.dropWhile_sublist (l := cs) (fun d => !isAlnumOrSpace d)).length_le
    omega

/-- `re.sub(r"\s+", " ", ·)`: each maximal whitespace run becomes a single
space. -/
def collapseSpaces : List Char → List Char
  | [] => []
  | c :: cs =>
    if c.isWhitespace then ' ' :: collapseSpaces (cs.dropWhile Char.isWhitespace)
    else c :: collapseSpaces cs
  termination_by l => l.length
  decreasing_by
  · simp only [List.length_cons]
    have := (List.dropWhile_sublist (l := cs) Char.isWhitespace).length_le
    omega
  · simp only [List.length_cons]
    omega

/-- `utils.clean_text`: collapse non-alphanumeric runs to spaces, collapse
whitespace runs, and strip the ends. -/
def clean_text (title : List Char) : List Char :=
  pyStrip (collapseSpaces (collapseNonAlnum title))

/-- Title normalization as performed on each scraped row
(`shop_class.py:133`): `utils.clean_text(title.lower())`. -/
def normalizeTitle (title : List Char) : List Char :=
  clean_text (pyLower title)

/-! ### `utils.reject_outliers` (`utils.py:63`) -/

/-- Insert into an ascending list of rationals. -/
def insertRat (x : ℚ) : List ℚ → List ℚ
  | [] => [x]
  | y :: ys => if x ≤ y then x :: y :: ys else y :: insertRat x ys

/-- Numeric ascending sort (insertion sort), modelling `np.sort`'s order. -/
def sortRats : List ℚ → List ℚ
  | [] => []
  | x :: xs => insertRat x (sortRats xs)

/-- `np.median`: the middle element of the sorted data for odd length, the
mean of the two middle elements for even length.  (Callers guard against
empty data.) -/
def npMedian (l : List ℚ) : ℚ :=
  let s := sortRats l
  let n := l.length
  if n % 2 = 1 then s.getD (n / 2) 0
  else (s.getD (n / 2 - 1) 0 + s.getD (n / 2) 0) / 2

/-- `utils.reject_outliers`: indices whose absolute deviation from the
median is at least `m` median-absolute-deviations (with the
`np.isclose(mad, 0)` degenerate branch comparing the raw deviations
against `m`; `np.isclose(a, 0)` is `|a - 0| <= 1e-8 + 1e-5 * |0|`). -/
def reject_outliers (data : List ℚ) (m : ℚ) : List Nat :=
  if data.length = 0 then []
  else
    let median := npMedian data
    let distribution := data.map (fun x => |x - median|)
    let m_deviation := npMedian distribution
    if |m_deviation - 0| ≤ 1 / 100000000 + 1 / 100000 * |(0 : ℚ)| then
      (List.range data.length).filter (fun i => decide (m ≤ distribution.getD i 0))
    else
      let standard := distribution.map (fun d => d / m_deviation)
      (List.range data.length).filter (fun i => decide (m ≤ standard.getD i 0))

/-! ### `utils.price_difference_rating` (`utils.py:83`)

The decay penalty applies `np.exp`, so this function is modelled over `ℝ`.
The Python-level failure for non-numeric arguments is outside the typed
model; the `initial <= 0` validation is kept. -/

noncomputable def price_difference_rating (initial final : ℝ) (days : ℤ) :
    Except ScrapeError ℝ :=
  if initial ≤ 0 then .error .invalidDataFormat
  else
    let decay_constant : ℝ := 1 / 100
    let linear_factor : ℝ := 125 / 10000
    let threshold_days : ℤ := 7
    let adjusted_initial :=
      if threshold_days ≤ days then
        let days_past_threshold : ℝ := (days : ℝ) - (threshold_days : ℝ)
        initial + (initial * Real.exp (-decay_constant * days_past_threshold)
          + linear_factor * days_past_threshold * initial)
      else initial
    let rating : ℝ :=
      if adjusted_initial ≤ final then 5
      else 5 - (adjusted_initial - final) / adjusted_initial * 5
    .ok (min (max rating 0) 5)

/-- The spec's reference definition of the quality rating (§4.7): inflate
the initial price by `initial * e^(-0.01 (d-7)) + 0.0125 (d-7) * initial`
once the listing is at least 7 days old, rate `5` when the adjusted initial
price does not exceed the final price and
`5 - (adjusted - final)/adjusted * 5` otherwise, clamped to `[0, 5]`. -/
noncomputable def qualityRatingSpec (initialPrice finalPrice : ℝ) (daysListed : ℤ) : ℝ :=
  let adjustedInitial :=
    if 7 ≤ daysListed then
      initialPrice + (initialPrice * Real.exp (-(1 / 100) * ((daysListed : ℝ) - 7))
        + 125 / 10000 * ((daysListed : ℝ) - 7) * initialPrice)
    else initialPrice
  let rating : ℝ :=
    if adjustedInitial ≤ finalPrice then 5
    else 5 - (adjustedInitial - finalPrice) / adjustedInitial * 5
  min (max rating 0) 5

/-! ### Candidate records and the best-candidate selector -/

/-- One row of `get_product_info` output (`shop_class.py:118`): a normalized
title with price, shipping, country and condition fields.  `pageInfo`
arguments below supply these per page, abstracting the network fetch and
HTML extraction (the spec's fetch collaborator). -/
structure ProductInfo where
  title : List Char
  price : ℚ
  shipping : ℚ
  country : List Char
  condition : List Char
  deriving DecidableEq

/-- A candidate value as stored in the similarity dictionaries.  The price
and shipping fields are `ℚ` in `filter_products_by_similarity` and
2-decimal formatted strings (`List Char`) in `construct_candidates`; the
type parameter `π` covers both. -/
structure Candidate (π : Type) where
  price : π
  shipping : π
  country : List Char
  condition : List Char
  similarity : ℚ
  deriving DecidableEq

/-- Python dictionary assignment `d[k] = v` on an insertion-ordered
association list: an existing key keeps its position with the new value, a
new key is appended. -/
def dictInsert {α : Type} (k : List Char) (v : α) (d : List (List Char × α)) :
    List (List Char × α) :=
  if d.any (fun p => decide (p.1 = k)) then
    d.map (fun p => if p.1 = k then (k, v) else p)
  else d ++ [(k, v)]

/-- `EbayScraper.lowest_price_highest_similarity` (`shop_class.py:143`).
The first loop tracks the entry of maximal similarity (and a minimum-price
entry that the source immediately discards); the entries tied with the
maximal similarity under exact equality are collected, and the first
price-minimal entry among them is returned.  Prices are compared with the
generic `<`, exactly as Python's `<` and `min(..., key=...)` do. -/
def lowest_price_highest_similarity {π : Type} [LT π]
    [DecidableRel (fun a b : π => a < b)]
    (filtered_prices_descriptions : List (List Char × Candidate π)) :
    Except ScrapeError (List Char × Candidate π) :=
  match filtered_prices_descriptions with
  | [] => .error .noProductsFound
  | x :: xs =>
    let max_similarity_item :=
      xs.foldl (fun acc p =>
        if acc.similarity < p.2.similarity then p.2 else acc) x.2
    let _min_price_item :=
      xs.foldl (fun acc p => if p.2.price < acc.2.price then p else acc) x
    let max_similar_items := (x :: xs).filter
      (fun p => decide (p.2.similarity = max_similarity_item.similarity))
    match max_similar_items with
    | [] =>
      -- `min` of an empty sequence raises in Python; unreachable, because
      -- the maximal item ties with itself.
      .error .invalidDataFormat
    | t :: ts =>
      .ok (ts.foldl (fun acc p => if p.2.price < acc.2.price then p else acc) t)

/-- `EbayScraper.filter_products_by_similarity` (`shop_class.py:258`):
validate the threshold, then keep every product whose similarity to the
target title reaches it, keyed by title with the score attached. -/
def filter_products_by_similarity (product_info : List ProductInfo)
    (target_title : List Char) (similarity_threshold : ℚ) :
    Except ScrapeError (List (List Char × Candidate ℚ)) :=
  if ¬(0 ≤ similarity_threshold ∧ similarity_threshold ≤ 1) then
    .error .invalidSimilarityThreshold
  else
    .ok (product_info.foldl (fun acc product =>
      let similarity := get_similarity product.title target_title
      if similarity_threshold ≤ similarity then
        dictInsert product.title
          ⟨product.price, product.shipping, product.country,
            product.condition, similarity⟩ acc
      else acc) [])

/-- `EbayScraper.listing_product_similarity` (`shop_class.py:281`) for the
page currently loaded: filter the page's extracted rows against the
lowercased target title. -/
def listing_product_similarity (pageInfo : Nat → List ProductInfo)
    (page : Nat) (title : List Char) (similarity_threshold : ℚ) :
    Except ScrapeError (List (List Char × Candidate ℚ)) :=
  filter_products_by_similarity (pageInfo page) (pyLower title) similarity_threshold

/-- `EbayScraper.construct_candidates` (`shop_class.py:171`): require the
six parallel sequences to have equal lengths, then build the candidate
dictionary keyed by description (string prices and shipping are stored
exactly as given). -/
def construct_candidates (descriptions : List (List Char))
    (prices shipping countries conditions : List (List Char))
    (similarities : List ℚ) :
    Except ScrapeError (List (List Char × Candidate (List Char))) :=
  if ¬(descriptions.length = prices.length ∧ descriptions.length = shipping.length ∧
      descriptions.length = countries.length ∧ descriptions.length = conditions.length ∧
      descriptions.length = similarities.length) then
    .error .invalidDataFormat
  else
    .ok ((descriptions.zip (prices.zip (shipping.zip (countries.zip
        (conditions.zip similarities))))).foldl
      (fun acc x =>
        dictInsert x.1
          ⟨x.2.1, x.2.2.1, x.2.2.2.1, x.2.2.2.2.1, x.2.2.2.2.2⟩ acc) [])

/-! ### Price formatting and the adaptive search (`shop_class.py:212`) -/

/-- Group a digit string (most significant digit first) with `,` every
three digits, as the `","` option of a format spec does. -/
def groupDigitsAux : List Char → List Char
  | d1 :: d2 :: d3 :: d4 :: rest => d1 :: d2 :: d3 :: ',' :: groupDigitsAux (d4 :: rest)
  | l => l

/-- Two-decimal, comma-grouped rendering of a rational: `f"{x:,.2f}"`.
The value is scaled to cents and rounded (`round` is half-up on `ℚ`; the
float formatting this models rounds the nearest-double value, which agrees
on exactly representable inputs). -/
def formatComma2 (x : ℚ) : List Char :=
  let cents : ℤ := round (x * 100)
  let sign : List Char := if cents < 0 then ['-'] else []
  let c := cents.natAbs
  let whole := c / 100
  let frac := c % 100
  let fracDigits := if frac < 10 then '0' :: Nat.toDigits 10 frac else Nat.toDigits 10 frac
  sign ++ (groupDigitsAux (Nat.toDigits 10 whole).reverse).reverse ++ '.' :: fracDigits

/-- Result of one run of the ramp-down retry loop, with the re-filter
attempt count and the thresholds used as a ghost trace. -/
structure RampOut where
  result : List (List Char × Candidate ℚ)
  ramp_down : ℚ
  attempts : Nat
  thresholds : List ℚ
  deriving DecidableEq

/-- The ramp-down retry loop of `find_viable_product` (`shop_class.py:233`):

```
consecutively_empty = 0
filtered_prices_descriptions = {}
while not filtered_prices_descriptions:
    ramp_down += 0.05
    filtered_prices_descriptions = self.listing_product_similarity(
        title, max(0.0, similarity_threshold - ramp_down))
    if consecutively_empty == 2:
        break
    if filtered_prices_descriptions:
        consecutively_empty = 0
    else:
        consecutively_empty += 1
```

`remaining` is `2 - consecutively_empty` (the loop is entered with the
counter at `0`, i.e. `remaining = 2`); the `consecutively_empty == 2` break
is the `remaining = 0` case, tested after the re-filter exactly as in the
source.  A non-empty result resets the counter and then exits through the
`while` condition, which is the non-empty early return. -/
def rampLoop (filt : ℚ → Except ScrapeError (List (List Char × Candidate ℚ)))
    (similarity_threshold : ℚ) : ℚ → Nat → Except ScrapeError RampOut
  | ramp_down, 0 =>
    -- `consecutively_empty == 2`: one more re-filter, then break with
    -- whatever it produced (possibly still empty).
    let rd := ramp_down + 5 / 100
    let thr := max 0 (similarity_threshold - rd)
    match filt thr with
    | .error e => .error e
    | .ok filtered => .ok ⟨filtered, rd, 1, [thr]⟩
  | ramp_down, rem + 1 =>
    let rd := ramp_down + 5 / 100
    let thr := max 0 (similarity_threshold - rd)
    match filt thr with
    | .error e => .error e
    | .ok filtered =>
      if filtered.isEmpty then
        match rampLoop filt similarity_threshold rd rem with
        | .error e => .error e
        | .ok out => .ok ⟨out.result, out.ramp_down, out.attempts + 1, thr :: out.thresholds⟩
      else .ok ⟨filtered, rd, 1, [thr]⟩

/-- Accumulator of the page loop of `find_viable_product`, with ghost trace
fields: `pages` counts completed page iterations, `thresholds` records
every threshold passed to the filter, and `rampAttempts` records the
ramp-down attempt count per page (0 when the base attempt succeeds). -/
structure SearchAcc where
  descriptions : List (List Char)
  prices : List (List Char)
  shipping : List (List Char)
  countries : List (List Char)
  conditions : List (List Char)
  similarities : List ℚ
  ramp_down : ℚ
  pages : Nat
  thresholds : List ℚ
  rampAttempts : List Nat
  deriving DecidableEq

/-- One iteration of the page loop (`shop_class.py:220`): attempt the base
threshold `0.35`; on an empty result enter the ramp-down loop; then append
the page's results (prices and shipping formatted with `f"{...:,.2f}"`) to
the running accumulation. -/
def fvpPage (pageInfo : Nat → List ProductInfo) (title : List Char)
    (acc : SearchAcc) (page : Nat) : Except ScrapeError SearchAcc :=
  let similarity_threshold : ℚ := 35 / 100
  match listing_product_similarity pageInfo page title similarity_threshold with
  | .error e => .error e
  | .ok fpd0 =>
    let afterTry : Except ScrapeError
        (List (List Char × Candidate ℚ) × ℚ × Nat × List ℚ) :=
      if fpd0.isEmpty then
        match rampLoop (listing_product_similarity pageInfo page title)
            similarity_threshold acc.ramp_down 2 with
        | .error e => .error e
        | .ok r => .ok (r.result, r.ramp_down, r.attempts, r.thresholds)
      else .ok (fpd0, acc.ramp_down, 0, [])
    match afterTry with
    | .error e => .error e
    | .ok (fpd, rd, att, thrs) =>
      .ok { descriptions := acc.descriptions ++ fpd.map (fun p => p.1)
            prices := acc.prices ++ fpd.map (fun p => formatComma2 p.2.price)
            shipping := acc.shipping ++ fpd.map (fun p => formatComma2 p.2.shipping)
            countries := acc.countries ++ fpd.map (fun p => p.2.country)
            conditions := acc.conditions ++ fpd.map (fun p => p.2.condition)
            similarities := acc.similarities ++ fpd.map (fun p => p.2.similarity)
            ramp_down := rd
            pages := acc.pages + 1
            thresholds := acc.thresholds ++ similarity_threshold :: thrs
            rampAttempts := acc.rampAttempts ++ [att] }

/-- The page loop `for page_number in range(5)` as a fold with error
propagation. -/
def fvpLoop (pageInfo : Nat → List ProductInfo) (title : List Char) :
    List Nat → SearchAcc → Except ScrapeError SearchAcc
  | [], acc => .ok acc
  | p :: ps, acc =>
    match fvpPage pageInfo title acc p with
    | .error e => .error e
    | .ok acc' => fvpLoop pageInfo title ps acc'

/-- The initial accumulator: six empty sequences and the caller-supplied
`ramp_down`. -/
def initAcc (ramp_down : ℚ) : SearchAcc :=
  ⟨[], [], [], [], [], [], ramp_down, 0, [], []⟩

/-- The six parallel output sequences of `find_viable_product`. -/
structure SearchOut where
  descriptions : List (List Char)
  prices : List (List Char)
  shipping : List (List Char)
  countries : List (List Char)
  conditions : List (List Char)
  similarities : List ℚ
  deriving DecidableEq

/-- `EbayScraper.find_viable_product` (`shop_class.py:212`): scan pages
`0..4`, accumulate every page's filtered candidates, and fail with the
no-products error when the accumulated description list is empty. -/
def find_viable_product (pageInfo : Nat → List ProductInfo) (title : List Char)
    (ramp_down : ℚ) : Except ScrapeError SearchOut :=
  match fvpLoop pageInfo title (List.range 5) (initAcc ramp_down) with
  | .error e => .error e
  | .ok acc =>
    if acc.descriptions.isEmpty then .error .noProductsFound
    else .ok ⟨acc.descriptions, acc.prices, acc.shipping, acc.countries,
      acc.conditions, acc.similarities⟩

/-- A concrete two-product page fixture: page 0 extracts a product titled
`"ax"` priced `1000` and a product titled `"xb"` priced `99`; the other
pages are empty.  Both titles have similarity `1/2` to the search title
`"ab"`. -/
def pageInfoC10 : Nat → List ProductInfo := fun p =>
  if p = 0 then
    [⟨['a', 'x'], 1000, 2, ['u', 's'], ['n', 'e', 'w']⟩,
     ⟨['x', 'b'], 99, 3, ['u', 'k'], ['o', 'l', 'd']⟩]
  else []

/-! ### Specification layer for the self-comparison DP -/

/-- A DP cell `(i, j)` of the self-comparison of `u` on the window
`[alo, ahi) x [alo, ahi)` that `find_longest_match`'s inner loop actually
visits: the row is in range, the column is in range, and the column appears
in `b2j` for the row's character. -/
def selfOk (u : List Char) (alo ahi i j : Nat) : Bool :=
  decide (alo ≤ i) && decide (alo ≤ j) && decide (j < ahi) &&
    decide (j ∈ b2j u (u.getD i ' '))

/-- The semantic value of the `j2len` dynamic program at cell `(i, j)` of
the self-comparison: the length of the visited run ending at `(i, j)`. -/
def runlen (u : List Char) (alo ahi : Nat) : Nat → Nat → Nat
  | 0, j => if selfOk u alo ahi 0 j then 1 else 0
  | i + 1, j =>
    if selfOk u alo ahi (i + 1) j then
      (if j = 0 then 0 else runlen u alo ahi i (j - 1)) + 1
    else 0

/-! ### Specification-layer predicates used by the proofs -/

/-- A character that title normalization leaves unchanged: a space, or a
lowercase-stable ASCII alphanumeric. -/
def goodChar (c : Char) : Prop :=
  c = ' ' ∨ ((c.isAlpha || c.isDigit) = true ∧ c.toLower = c)

/-- The normal form produced by title normalization: every character is a
space or a lowercase-stable alphanumeric, no two spaces are adjacent, and
neither end is a space. -/
def isNormalTitle (w : List Char) : Prop :=
  (∀ c ∈ w, goodChar c) ∧
  List.Chain' (fun x y => ¬(x = ' ' ∧ y = ' ')) w ∧
  w.head? ≠ some ' ' ∧ w.getLast? ≠ some ' '

/-! ## Theorems -/

/-! ### C6 — threshold validation of the candidate filter -/

/-- C6: `filter_products_by_similarity` raises the invalid-threshold error
if and only if the threshold is outside `[0, 1]` (so `0` and `1` are
accepted), and on a bad threshold the result does not depend on the
candidate list, i.e. no candidate is examined before the validation. -/
theorem c6_threshold_validation (product_info : List ProductInfo)
    (target_title : List Char) (t : ℚ) :
    ((∃ e, filter_products_by_similarity product_info target_title t = .error e) ↔
      t < 0 ∨ 1 < t) ∧
    (filter_products_by_similarity product_info target_title t =
        .error .invalidSimilarityThreshold ↔ t < 0 ∨ 1 < t) ∧
    (t < 0 ∨ 1 < t → ∀ other : List ProductInfo,
      filter_products_by_similarity product_info target_title t =
        filter_products_by_similarity other target_title t) := by
  unfold filter_products_by_similarity
  by_cases h : 0 ≤ t ∧ t ≤ 1
  · have hr : ¬(t < 0 ∨ 1 < t) := by
      push_neg
      exact ⟨h.1, h.2⟩
    simp [h, hr]
  · have hr : t < 0 ∨ 1 < t := by
      rcases not_and_or.mp h with h1 | h2
      · exact Or.inl (lt_of_not_le h1)
      · exact Or.inr (lt_of_not_le h2)
    simp [h, hr]

/-- Witness for C6 at the spec's boundary inputs: `1.0000001` and
`-0.0001` are rejected, `0` and `1` are accepted. -/
theorem c6_witness :
    (filter_products_by_similarity [] [] (10000001 / 10000000) =
      .error .invalidSimilarityThreshold) ∧
    (filter_products_by_similarity [] [] (-1 / 10000) =
      .error .invalidSimilarityThreshold) ∧
    ¬(∃ e, filter_products_by_similarity [] [] 0 = .error e) ∧
    ¬(∃ e, filter_products_by_similarity [] [] 1 = .error e) := by
  refine ⟨?_, ?_, ?_, ?_⟩
  · exact (c6_threshold_validation [] [] _).2.1.mpr (by norm_num)
  · exact (c6_threshold_validation [] [] _).2.1.mpr (by norm_num)
  · intro h
    have := (c6_threshold_validation [] [] 0).1.mp h
    norm_num at this
  · intro h
    have := (c6_threshold_validation [] [] 1).1.mp h
    norm_num at this

/-! ### C7 — the price-quality rating -/

/-- C7: for positive initial prices `price_difference_rating` returns
exactly the spec's reference value (decay-plus-linear inflation from day 7,
`5` when the adjusted initial price does not beat the final price,
otherwise the relative-difference rating, clamped), that value lies in
`[0, 5]`, and a non-positive initial price is rejected.  (The non-numeric
failure is a dynamic-typing condition with no counterpart in the typed
model.) -/
theorem c7_price_rating (initial final : ℝ) (days : ℤ) :
    (initial ≤ 0 →
      price_difference_rating initial final days = .error .invalidDataFormat) ∧
    (0 < initial →
      price_difference_rating initial final days =
        .ok (qualityRatingSpec initial final days) ∧
      0 ≤ qualityRatingSpec initial final days ∧
      qualityRatingSpec initial final days ≤ 5) := by
  constructor
  · intro h
    unfold price_difference_rating
    simp [h]
  · intro h
    refine ⟨?_, ?_, ?_⟩
    · unfold price_difference_rating qualityRatingSpec
      rw [if_neg (not_le.mpr h)]
      norm_num
    · exact le_min (le_max_right _ _) (by norm_num)
    · exact min_le_right _ _

/-- Witness for C7: at `initial = 100`, `final = 50`, `days = 0` the rating
is the spec value `5/2`, inside `[0, 5]`. -/
theorem c7_witness :
    (0 : ℝ) < 100 ∧
    price_difference_rating 100 50 0 = .ok (qualityRatingSpec 100 50 0) ∧
    0 ≤ qualityRatingSpec 100 50 0 ∧ qualityRatingSpec 100 50 0 ≤ 5 ∧
    qualityRatingSpec (100 : ℝ) 50 0 = 5 / 2 := by
  have h := (c7_price_rating 100 50 0).2 (by norm_num)
  refine ⟨by norm_num, h.1, h.2.1, h.2.2, ?_⟩
  unfold qualityRatingSpec
  norm_num

/-! ### C1 — the best-candidate selector -/

/-- The running maximum-similarity fold of the selector: its result is the
seed or one of the scanned values, and its similarity bounds them all. -/
theorem maxSimFold_spec {π : Type} (xs : List (List Char × Candidate π))
    (a : Candidate π) :
    (xs.foldl (fun acc p => if acc.similarity < p.2.similarity then p.2 else acc) a = a ∨
      ∃ q ∈ xs, xs.foldl (fun acc p =>
        if acc.similarity < p.2.similarity then p.2 else acc) a = q.2) ∧
    a.similarity ≤ (xs.foldl (fun acc p =>
      if acc.similarity < p.2.similarity then p.2 else acc) a).similarity ∧
    ∀ p ∈ xs, p.2.similarity ≤ (xs.foldl (fun acc p =>
      if acc.similarity < p.2.similarity then p.2 else acc) a).similarity := by
  induction xs generalizing a with
  | nil =>
    refine ⟨Or.inl rfl, le_refl _, ?_⟩
    intro p hp
    exact absurd hp (List.not_mem_nil p)
  | cons x xs ih =>
    simp only [List.foldl_cons]
    by_cases hx : a.similarity < x.2.similarity
    · rw [if_pos hx]
      obtain ⟨hmem, hseed, hall⟩ := ih x.2
      refine ⟨?_, le_trans (le_of_lt hx) hseed, ?_⟩
      · rcases hmem with h | ⟨q, hq, he⟩
        · exact Or.inr ⟨x, List.mem_cons_self x xs, h⟩
        · exact Or.inr ⟨q, List.mem_cons_of_mem x hq, he⟩
      · intro p hp
        rcases List.mem_cons.mp hp with h1 | h2
        · rw [h1]
          exact hseed
        · exact hall p h2
    · rw [if_neg hx]
      obtain ⟨hmem, hseed, hall⟩ := ih a
      refine ⟨?_, hseed, ?_⟩
      · rcases hmem with h | ⟨q, hq, he⟩
        · exact Or.inl h
        · exact Or.inr ⟨q, List.mem_cons_of_mem x hq, he⟩
      · intro p hp
        rcases List.mem_cons.mp hp with h1 | h2
        · rw [h1]
          exact le_trans (le_of_not_lt hx) hseed
        · exact hall p h2

/-- The minimum-price fold of the selector (Python's
`min(..., key=lambda x: x[1]["price"])`): its result is one of the
candidates and its price is least among them. -/
theorem minPriceFold_spec {π : Type} [LinearOrder π]
    (ts : List (List Char × Candidate π)) (t : List Char × Candidate π) :
    ts.foldl (fun acc p => if p.2.price < acc.2.price then p else acc) t ∈ t :: ts ∧
    ∀ p ∈ t :: ts,
      (ts.foldl (fun acc p => if p.2.price < acc.2.price then p else acc) t).2.price ≤
        p.2.price := by
  induction ts generalizing t with
  | nil =>
    refine ⟨List.mem_cons_self t [], ?_⟩
    intro p hp
    rcases List.mem_cons.mp hp with h1 | h2
    · simp only [List.foldl_nil]
      rw [h1]
    · exact absurd h2 (List.not_mem_nil p)
  | cons x xs ih =>
    simp only [List.foldl_cons]
    by_cases hx : x.2.price < t.2.price
    · rw [if_pos hx]
      obtain ⟨hmem, hall⟩ := ih x
      refine ⟨List.mem_cons_of_mem t hmem, ?_⟩
      intro p hp
      rcases List.mem_cons.mp hp with h1 | h2
      · rw [h1]
        exact le_trans (hall x (List.mem_cons_self x xs)) (le_of_lt hx)
      · exact hall p h2
    · rw [if_neg hx]
      obtain ⟨hmem, hall⟩ := ih t
      refine ⟨?_, ?_⟩
      · rcases List.mem_cons.mp hmem with h1 | h2
        · exact List.mem_cons.mpr (Or.inl h1)
        · exact List.mem_cons.mpr (Or.inr (List.mem_cons.mpr (Or.inr h2)))
      · intro p hp
        rcases List.mem_cons.mp hp with h1 | h2
        · exact hall p (by rw [h1]; exact List.mem_cons_self t xs)
        · rcases List.mem_cons.mp h2 with h3 | h4
          · rw [h3]
            exact le_trans (hall t (List.mem_cons_self t xs)) (le_of_not_lt hx)
          · exact hall p (List.mem_cons_of_mem t h4)

/-- C1: on the empty candidate map the selector fails with the no-products
error; on a non-empty map it returns an entry of the map whose similarity
is maximal over all entries and whose price is minimal among the entries
whose similarity is exactly that maximum. -/
theorem c1_best_candidate {π : Type} [LinearOrder π]
    (m : List (List Char × Candidate π)) :
    lowest_price_highest_similarity ([] : List (List Char × Candidate π)) =
      .error .noProductsFound ∧
    (m ≠ [] → ∃ r, lowest_price_highest_similarity m = .ok r ∧ r ∈ m ∧
      (∀ p ∈ m, p.2.similarity ≤ r.2.similarity) ∧
      (∀ p ∈ m, p.2.similarity = r.2.similarity → r.2.price ≤ p.2.price)) := by
  refine ⟨rfl, ?_⟩
  intro hm
  match m with
  | [] => exact absurd rfl hm
  | x :: xs =>
    obtain ⟨hmem, hseed, hall⟩ := maxSimFold_spec xs x.2
    set maxItem := xs.foldl
      (fun acc p => if acc.similarity < p.2.similarity then p.2 else acc) x.2 with hmax
    have htied : ∃ q ∈ x :: xs, q.2.similarity = maxItem.similarity := by
      rcases hmem with h | ⟨q, hq, he⟩
      · exact ⟨x, by simp, by rw [h]⟩
      · exact ⟨q, List.mem_cons.mpr (Or.inr hq), by rw [he]⟩
    have hne : (x :: xs).filter
        (fun p => decide (p.2.similarity = maxItem.similarity)) ≠ [] := by
      obtain ⟨q, hq, he⟩ := htied
      intro hnil
      have : q ∈ (x :: xs).filter
          (fun p => decide (p.2.similarity = maxItem.similarity)) := by
        rw [List.mem_filter]
        exact ⟨hq, by simp [he]⟩
      rw [hnil] at this
      exact absurd this (List.not_mem_nil q)
    unfold lowest_price_highest_similarity
    cases hfil : (x :: xs).filter
        (fun p => decide (p.2.similarity = maxItem.similarity)) with
    | nil => exact absurd hfil hne
    | cons t ts =>
      obtain ⟨hrmem, hrall⟩ := minPriceFold_spec ts t
      set r := ts.foldl (fun acc p => if p.2.price < acc.2.price then p else acc) t
        with hr
      have hrtied : r ∈ (x :: xs).filter
          (fun p => decide (p.2.similarity = maxItem.similarity)) := by
        rw [hfil]
        exact hrmem
      have hrin : r ∈ x :: xs := (List.mem_filter.mp hrtied).1
      have hrsim : r.2.similarity = maxItem.similarity := by
        have := (List.mem_filter.mp hrtied).2
        simpa using this
      refine ⟨r, ?_, hrin, ?_, ?_⟩
      · simp only [← hmax, hfil]
      · intro p hp
        rw [hrsim]
        rcases List.mem_cons.mp hp with h1 | h2
        · rw [h1]
          exact hseed
        · exact hall p h2
      · intro p hp hps
        have hptied : p ∈ t :: ts := by
          rw [← hfil, List.mem_filter]
          refine ⟨hp, by simp [hps ▸ hrsim]⟩
        exact hrall p hptied

/-- Witness for C1 at the spec's tie-break example: similarities
`[0.9, 0.9]`, prices `[20, 10]` — the selected entry is the price-10
candidate. -/
theorem c1_witness :
    ([(['a'], (⟨20, 0, [], [], 9 / 10⟩ : Candidate ℚ)),
        (['b'], ⟨10, 0, [], [], 9 / 10⟩)] ≠
      ([] : List (List Char × Candidate ℚ))) ∧
    (∃ r, lowest_price_highest_similarity
        [(['a'], (⟨20, 0, [], [], 9 / 10⟩ : Candidate ℚ)),
          (['b'], ⟨10, 0, [], [], 9 / 10⟩)] = .ok r ∧
      r ∈ [(['a'], (⟨20, 0, [], [], 9 / 10⟩ : Candidate ℚ)),
          (['b'], ⟨10, 0, [], [], 9 / 10⟩)] ∧
      (∀ p ∈ [(['a'], (⟨20, 0, [], [], 9 / 10⟩ : Candidate ℚ)),
          (['b'], ⟨10, 0, [], [], 9 / 10⟩)], p.2.similarity ≤ r.2.similarity) ∧
      (∀ p ∈ [(['a'], (⟨20, 0, [], [], 9 / 10⟩ : Candidate ℚ)),
          (['b'], ⟨10, 0, [], [], 9 / 10⟩)],
        p.2.similarity = r.2.similarity → r.2.price ≤ p.2.price)) ∧
    lowest_price_highest_similarity
        [(['a'], (⟨20, 0, [], [], 9 / 10⟩ : Candidate ℚ)),
          (['b'], ⟨10, 0, [], [], 9 / 10⟩)] =
      .ok (['b'], ⟨10, 0, [], [], 9 / 10⟩) := by
  refine ⟨by simp, (c1_best_candidate _).2 (by simp), ?_⟩
  unfold lowest_price_highest_similarity
  norm_num

/-! ### Search-loop lemmas shared by the claims about `find_viable_product` -/

/-- A threshold inside `[0, 1]` passes validation and the filter returns a
result. -/
theorem filter_products_ok (product_info : List ProductInfo)
    (target_title : List Char) (t : ℚ) (h0 : 0 ≤ t) (h1 : t ≤ 1) :
    ∃ r, filter_products_by_similarity product_info target_title t = .ok r := by
  unfold filter_products_by_similarity
  rw [if_neg (by push_neg; exact ⟨h0, h1⟩)]
  exact ⟨_, rfl⟩

/-- A threshold outside `[0, 1]` is rejected before any candidate is
examined. -/
theorem filter_products_err (product_info : List ProductInfo)
    (target_title : List Char) (t : ℚ) (h : t < 0 ∨ 1 < t) :
    filter_products_by_similarity product_info target_title t =
      .error .invalidSimilarityThreshold := by
  unfold filter_products_by_similarity
  rw [if_pos]
  intro hc
  rcases h with h | h
  · exact absurd hc.1 (not_le.mpr h)
  · exact absurd hc.2 (not_le.mpr h)

/-- An empty page filters to the empty dictionary at any valid threshold. -/
theorem lps_empty_page (pageInfo : Nat → List ProductInfo) (page : Nat)
    (title : List Char) (t : ℚ) (hp : pageInfo page = [])
    (h0 : 0 ≤ t) (h1 : t ≤ 1) :
    listing_product_similarity pageInfo page title t = .ok [] := by
  unfold listing_product_similarity filter_products_by_similarity
  rw [hp, if_neg (by push_neg; exact ⟨h0, h1⟩)]
  rfl

/-- Full behaviour of the ramp-down loop when the filter succeeds on every
valid threshold: it returns normally; its accumulator only grows (staying
nonnegative); every threshold it uses lies in `[0, base]`; it makes between
`1` and `remaining + 1` attempts; and it makes exactly `remaining + 1`
attempts when the final result is still empty. -/
theorem rampLoop_props
    (filt : ℚ → Except ScrapeError (List (List Char × Candidate ℚ)))
    (st : ℚ) (hst0 : 0 ≤ st) (hst1 : st ≤ 1)
    (hfilt : ∀ t, 0 ≤ t → t ≤ 1 → ∃ r, filt t = .ok r) :
    ∀ (rem : Nat) (rd : ℚ), 0 ≤ rd →
    ∃ out, rampLoop filt st rd rem = .ok out ∧
      rd ≤ out.ramp_down ∧ 0 ≤ out.ramp_down ∧
      (∀ t ∈ out.thresholds, 0 ≤ t ∧ t ≤ st) ∧
      1 ≤ out.attempts ∧ out.attempts ≤ rem + 1 ∧
      (out.result = [] → out.attempts = rem + 1) ∧
      ((∀ t, 0 ≤ t → t ≤ 1 → filt t = .ok []) → out.result = []) := by
  intro rem
  induction rem with
  | zero =>
    intro rd hrd
    have hrd' : (0 : ℚ) ≤ rd + 5 / 100 := by linarith
    have hthr0 : (0 : ℚ) ≤ max 0 (st - (rd + 5 / 100)) := le_max_left 0 _
    have hthr1 : max 0 (st - (rd + 5 / 100)) ≤ st :=
      max_le hst0 (by linarith)
    obtain ⟨r, hr⟩ := hfilt _ hthr0 (le_trans hthr1 hst1)
    refine ⟨⟨r, rd + 5 / 100, 1, [max 0 (st - (rd + 5 / 100))]⟩, ?_, by linarith,
      hrd', ?_, le_refl _, le_refl _, fun _ => rfl, ?_⟩
    · simp only [rampLoop, hr]
    · intro t ht
      rcases List.mem_singleton.mp ht with rfl
      exact ⟨hthr0, hthr1⟩
    · intro hall
      have := hall _ hthr0 (le_trans hthr1 hst1)
      rw [hr] at this
      exact (Except.ok.injEq _ _).mp this
  | succ rem ih =>
    intro rd hrd
    have hrd' : (0 : ℚ) ≤ rd + 5 / 100 := by linarith
    have hthr0 : (0 : ℚ) ≤ max 0 (st - (rd + 5 / 100)) := le_max_left 0 _
    have hthr1 : max 0 (st - (rd + 5 / 100)) ≤ st :=
      max_le hst0 (by linarith)
    obtain ⟨r, hr⟩ := hfilt _ hthr0 (le_trans hthr1 hst1)
    by_cases he : r.isEmpty
    · obtain ⟨out, hout, hrdle, hrd0, hths, hat1, hat2, hatem, hallem⟩ :=
        ih (rd + 5 / 100) hrd'
      refine ⟨⟨out.result, out.ramp_down, out.attempts + 1,
        max 0 (st - (rd + 5 / 100)) :: out.thresholds⟩, ?_, ?_, ?_, ?_, ?_, ?_, ?_, ?_⟩
      · simp only [rampLoop, hr, if_pos he, hout]
      · show rd ≤ out.ramp_down
        linarith
      · exact hrd0
      · intro t ht
        rcases List.mem_cons.mp ht with h1 | h2
        · rw [h1]
          exact ⟨hthr0, hthr1⟩
        · exact hths t h2
      · show 1 ≤ out.attempts + 1
        omega
      · show out.attempts + 1 ≤ rem + 1 + 1
        omega
      · intro hres
        have hres' : out.result = [] := hres
        show out.attempts + 1 = rem + 1 + 1
        rw [hatem hres']
      · intro hall
        exact hallem hall
    · refine ⟨⟨r, rd + 5 / 100, 1, [max 0 (st - (rd + 5 / 100))]⟩,
        ?_, ?_, ?_, ?_, ?_, ?_, ?_, ?_⟩
      · simp only [rampLoop, hr, if_neg he]
      · show rd ≤ rd + 5 / 100
        linarith
      · exact hrd'
      · intro t ht
        rcases List.mem_singleton.mp ht with rfl
        exact ⟨hthr0, hthr1⟩
      · exact le_refl _
      · show 1 ≤ rem + 1 + 1
        omega
      · intro hres
        have hres' : r = [] := hres
        rw [hres'] at he
        exact absurd List.isEmpty_nil he
      · intro hall
        have := hall _ hthr0 (le_trans hthr1 hst1)
        rw [hr] at this
        have hnil : r = [] := (Except.ok.injEq _ _).mp this
        rw [hnil] at he
        exact absurd List.isEmpty_nil he

/-- Full behaviour of one page iteration: it returns normally whenever the
incoming accumulator is nonnegative, increments the ghost page counter,
keeps the accumulator nonnegative, extends the threshold trace only with
values in `[0, 0.35]`, appends one ramp-attempt count of at most 3, and
contributes nothing to the accumulation when the page is empty. -/
theorem fvpPage_props (pageInfo : Nat → List ProductInfo) (title : List Char)
    (acc : SearchAcc) (page : Nat) (hrd : 0 ≤ acc.ramp_down) :
    ∃ acc', fvpPage pageInfo title acc page = .ok acc' ∧
      0 ≤ acc'.ramp_down ∧
      acc'.pages = acc.pages + 1 ∧
      (∃ ts, acc'.thresholds = acc.thresholds ++ ts ∧
        ∀ t ∈ ts, 0 ≤ t ∧ t ≤ 35 / 100) ∧
      (∃ att, att ≤ 3 ∧ acc'.rampAttempts = acc.rampAttempts ++ [att]) ∧
      (pageInfo page = [] → acc'.descriptions = acc.descriptions) := by
  have hfilt : ∀ t, 0 ≤ t → t ≤ 1 →
      ∃ r, listing_product_similarity pageInfo page title t = .ok r := by
    intro t h0 h1
    exact filter_products_ok _ _ t h0 h1
  obtain ⟨r0, hr0⟩ := hfilt (35 / 100) (by norm_num) (by norm_num)
  by_cases he : r0.isEmpty
  · obtain ⟨out, hout, hrdle, hrd0, hths, hat1, hat2, _, hallem⟩ :=
      rampLoop_props (listing_product_similarity pageInfo page title)
        (35 / 100) (by norm_num) (by norm_num) hfilt 2 acc.ramp_down hrd
    refine ⟨{ descriptions := acc.descriptions ++ out.result.map (fun p => p.1)
              prices := acc.prices ++ out.result.map (fun p => formatComma2 p.2.price)
              shipping := acc.shipping ++ out.result.map (fun p => formatComma2 p.2.shipping)
              countries := acc.countries ++ out.result.map (fun p => p.2.country)
              conditions := acc.conditions ++ out.result.map (fun p => p.2.condition)
              similarities := acc.similarities ++ out.result.map (fun p => p.2.similarity)
              ramp_down := out.ramp_down
              pages := acc.pages + 1
              thresholds := acc.thresholds ++ 35 / 100 :: out.thresholds
              rampAttempts := acc.rampAttempts ++ [out.attempts] },
      ?_, ?_, ?_, ?_, ?_, ?_⟩
    · simp only [fvpPage, hr0, if_pos he, hout]
    · exact hrd0
    · rfl
    · refine ⟨35 / 100 :: out.thresholds, rfl, ?_⟩
      intro t ht
      rcases List.mem_cons.mp ht with h1 | h2
      · rw [h1]
        norm_num
      · exact hths t h2
    · exact ⟨out.attempts, by omega, rfl⟩
    · intro hp
      have hres : out.result = [] :=
        hallem (fun t h0 h1 => lps_empty_page pageInfo page title t hp h0 h1)
      show acc.descriptions ++ out.result.map (fun p => p.1) = acc.descriptions
      rw [hres]
      simp
  · refine ⟨{ descriptions := acc.descriptions ++ r0.map (fun p => p.1)
              prices := acc.prices ++ r0.map (fun p => formatComma2 p.2.price)
              shipping := acc.shipping ++ r0.map (fun p => formatComma2 p.2.shipping)
              countries := acc.countries ++ r0.map (fun p => p.2.country)
              conditions := acc.conditions ++ r0.map (fun p => p.2.condition)
              similarities := acc.similarities ++ r0.map (fun p => p.2.similarity)
              ramp_down := acc.ramp_down
              pages := acc.pages + 1
              thresholds := acc.thresholds ++ [35 / 100]
              rampAttempts := acc.rampAttempts ++ [0] },
      ?_, hrd, rfl, ?_, ⟨0, by omega, rfl⟩, ?_⟩
    · simp only [fvpPage, hr0, if_neg he]
    · refine ⟨[35 / 100], rfl, ?_⟩
      intro t ht
      rcases List.mem_singleton.mp ht with rfl
      norm_num
    · intro hp
      have := lps_empty_page pageInfo page title (35 / 100) hp
        (by norm_num) (by norm_num)
      rw [hr0] at this
      have hnil : r0 = [] := (Except.ok.injEq _ _).mp this
      rw [hnil] at he
      exact absurd List.isEmpty_nil he

/-- Full behaviour of the page loop over any page list, accumulated from
`fvpPage_props` by induction. -/
theorem fvpLoop_props (pageInfo : Nat → List ProductInfo) (title : List Char) :
    ∀ (ps : List Nat) (acc : SearchAcc), 0 ≤ acc.ramp_down →
    ∃ acc', fvpLoop pageInfo title ps acc = .ok acc' ∧
      0 ≤ acc'.ramp_down ∧
      acc'.pages = acc.pages + ps.length ∧
      (∃ ts, acc'.thresholds = acc.thresholds ++ ts ∧
        ∀ t ∈ ts, 0 ≤ t ∧ t ≤ 35 / 100) ∧
      (∃ ats, acc'.rampAttempts = acc.rampAttempts ++ ats ∧ ∀ k ∈ ats, k ≤ 3) ∧
      ((∀ p ∈ ps, pageInfo p = []) → acc'.descriptions = acc.descriptions) := by
  intro ps
  induction ps with
  | nil =>
    intro acc hrd
    exact ⟨acc, rfl, hrd, by simp, ⟨[], by simp⟩, ⟨[], by simp⟩, fun _ => rfl⟩
  | cons p ps ih =>
    intro acc hrd
    obtain ⟨acc1, h1, hrd1, hp1, ⟨ts1, hts1, hts1b⟩, ⟨att1, hatt1, hattb1⟩, hdesc1⟩ :=
      fvpPage_props pageInfo title acc p hrd
    obtain ⟨acc2, h2, hrd2, hp2, ⟨ts2, hts2, hts2b⟩, ⟨ats2, hats2, hats2b⟩, hdesc2⟩ :=
      ih acc1 hrd1
    refine ⟨acc2, ?_, hrd2, ?_, ?_, ?_, ?_⟩
    · simp only [fvpLoop, h1, h2]
    · rw [hp2, hp1, List.length_cons]
      omega
    · refine ⟨ts1 ++ ts2, ?_, ?_⟩
      · rw [hts2, hts1, List.append_assoc]
      · intro t ht
        rcases List.mem_append.mp ht with h | h
        · exact hts1b t h
        · exact hts2b t h
    · refine ⟨[att1] ++ ats2, ?_, ?_⟩
      · rw [hats2, hattb1, List.append_assoc]
      · intro k hk
        rcases List.mem_append.mp hk with h | h
        · rcases List.mem_singleton.mp h with rfl
          exact hatt1
        · exact hats2b k h
    · intro hall
      rw [hdesc2 (fun q hq => hall q (List.mem_cons_of_mem p hq)),
        hdesc1 (hall p (List.mem_cons_self p ps))]

/-- One-step equations for `rampLoop`, conditioned on the filter result. -/
theorem rampLoop_zero_ok (filt : ℚ → Except ScrapeError (List (List Char × Candidate ℚ)))
    (st rd : ℚ) (r : List (List Char × Candidate ℚ))
    (h : filt (max 0 (st - (rd + 5 / 100))) = .ok r) :
    rampLoop filt st rd 0 =
      .ok ⟨r, rd + 5 / 100, 1, [max 0 (st - (rd + 5 / 100))]⟩ := by
  simp only [rampLoop, h]

theorem rampLoop_zero_err (filt : ℚ → Except ScrapeError (List (List Char × Candidate ℚ)))
    (st rd : ℚ) (e : ScrapeError)
    (h : filt (max 0 (st - (rd + 5 / 100))) = .error e) :
    rampLoop filt st rd 0 = .error e := by
  simp only [rampLoop, h]

theorem rampLoop_succ_err (filt : ℚ → Except ScrapeError (List (List Char × Candidate ℚ)))
    (st rd : ℚ) (rem : Nat) (e : ScrapeError)
    (h : filt (max 0 (st - (rd + 5 / 100))) = .error e) :
    rampLoop filt st rd (rem + 1) = .error e := by
  simp only [rampLoop, h]

theorem rampLoop_succ_empty (filt : ℚ → Except ScrapeError (List (List Char × Candidate ℚ)))
    (st rd : ℚ) (rem : Nat) (r : List (List Char × Candidate ℚ))
    (h : filt (max 0 (st - (rd + 5 / 100))) = .ok r) (he : r.isEmpty) :
    rampLoop filt st rd (rem + 1) =
      match rampLoop filt st (rd + 5 / 100) rem with
      | .error e => .error e
      | .ok out => .ok ⟨out.result, out.ramp_down, out.attempts + 1,
          max 0 (st - (rd + 5 / 100)) :: out.thresholds⟩ := by
  simp only [rampLoop, h, if_pos he]

theorem rampLoop_succ_nonempty (filt : ℚ → Except ScrapeError (List (List Char × Candidate ℚ)))
    (st rd : ℚ) (rem : Nat) (r : List (List Char × Candidate ℚ))
    (h : filt (max 0 (st - (rd + 5 / 100))) = .ok r) (he : ¬r.isEmpty) :
    rampLoop filt st rd (rem + 1) =
      .ok ⟨r, rd + 5 / 100, 1, [max 0 (st - (rd + 5 / 100))]⟩ := by
  simp only [rampLoop, h, if_neg he]

/-! ### C2 — the ramp-down retry bound (corrected: the bound is 3, not 2) -/

section
attribute [local semireducible] Rat.add Rat.mul Rat.sub Rat.inv

/-- Counterexample to C2 as stated: against a filter that always returns an
empty result, the ramp-down loop performs exactly **3** consecutive empty
re-filter attempts (at thresholds 0.30, 0.25, 0.20) before giving up, not
at most 2. -/
theorem c2_counterexample :
    rampLoop (fun _ => .ok []) (35 / 100) 0 2 =
      .ok ⟨[], 3 / 20, 3, [3 / 10, 1 / 4, 1 / 5]⟩ ∧
    ∀ out, rampLoop (fun _ => .ok []) (35 / 100) 0 2 = .ok out →
      ¬(out.attempts ≤ 2) := by
  constructor
  · decide
  · intro out hout hle
    have : out = ⟨[], 3 / 20, 3, [3 / 10, 1 / 4, 1 / 5]⟩ := by
      have h2 : rampLoop (fun _ => .ok []) (35 / 100) 0 2 =
          .ok ⟨[], 3 / 20, 3, [3 / 10, 1 / 4, 1 / 5]⟩ := by decide
      rw [h2] at hout
      exact ((Except.ok.injEq _ _).mp hout).symm
    rw [this] at hle
    exact absurd hle (by norm_num)

/-- C2 (amended): entered with the consecutive-empty counter at 0, the
ramp-down loop — which adds 0.05 to the accumulator and re-filters at
`max(0, 0.35 - accumulator)` each iteration — always performs between 1 and
**3** re-filter attempts, and performs exactly 3 precisely when it ends
with an empty result (it stops earlier only by obtaining a non-empty
result). -/
theorem c2_ramp_bound
    (filt : ℚ → Except ScrapeError (List (List Char × Candidate ℚ)))
    (st rd : ℚ) (out : RampOut)
    (hout : rampLoop filt st rd 2 = .ok out) :
    1 ≤ out.attempts ∧ out.attempts ≤ 3 ∧
    (out.result = [] → out.attempts = 3) := by
  have key : ∀ (rem : Nat) (rd : ℚ) (out : RampOut),
      rampLoop filt st rd rem = .ok out →
      1 ≤ out.attempts ∧ out.attempts ≤ rem + 1 ∧
      (out.result = [] → out.attempts = rem + 1) := by
    intro rem
    induction rem with
    | zero =>
      intro rd out hout
      cases hf : filt (max 0 (st - (rd + 5 / 100))) with
      | error e =>
        rw [rampLoop_zero_err filt st rd e hf] at hout
        exact absurd hout (by simp)
      | ok filtered =>
        rw [rampLoop_zero_ok filt st rd filtered hf] at hout
        have : out = ⟨filtered, rd + 5 / 100, 1, [max 0 (st - (rd + 5 / 100))]⟩ :=
          ((Except.ok.injEq _ _).mp hout).symm
        rw [this]
        exact ⟨le_refl _, le_refl _, fun _ => rfl⟩
    | succ rem ih =>
      intro rd out hout
      cases hf : filt (max 0 (st - (rd + 5 / 100))) with
      | error e =>
        rw [rampLoop_succ_err filt st rd rem e hf] at hout
        exact absurd hout (by simp)
      | ok filtered =>
        by_cases he : filtered.isEmpty
        · rw [rampLoop_succ_empty filt st rd rem filtered hf he] at hout
          cases hrec : rampLoop filt st (rd + 5 / 100) rem with
          | error e =>
            rw [hrec] at hout
            exact absurd hout (by simp)
          | ok out1 =>
            rw [hrec] at hout
            obtain ⟨ha1, ha2, ha3⟩ := ih (rd + 5 / 100) out1 hrec
            have : out = ⟨out1.result, out1.ramp_down, out1.attempts + 1,
                max 0 (st - (rd + 5 / 100)) :: out1.thresholds⟩ :=
              ((Except.ok.injEq _ _).mp hout).symm
            rw [this]
            refine ⟨?_, ?_, ?_⟩
            · show 1 ≤ out1.attempts + 1
              omega
            · show out1.attempts + 1 ≤ rem + 1 + 1
              omega
            · intro hres
              have hres' : out1.result = [] := hres
              show out1.attempts + 1 = rem + 1 + 1
              rw [ha3 hres']
        · rw [rampLoop_succ_nonempty filt st rd rem filtered hf he] at hout
          have : out = ⟨filtered, rd + 5 / 100, 1, [max 0 (st - (rd + 5 / 100))]⟩ :=
            ((Except.ok.injEq _ _).mp hout).symm
          rw [this]
          refine ⟨le_refl _, ?_, ?_⟩
          · show 1 ≤ rem + 1 + 1
            omega
          · intro hres
            have hres' : filtered = [] := hres
            rw [hres'] at he
            exact absurd List.isEmpty_nil he
  exact key 2 rd out hout

/-- Witness for C2's amended bound at a concrete always-empty filter: the
loop returns with exactly 3 attempts and an empty result. -/
theorem c2_witness :
    ∃ out, rampLoop (fun _ => .ok []) (35 / 100) 0 2 = .ok out ∧
      out.attempts = 3 ∧ out.result = [] ∧
      1 ≤ out.attempts ∧ out.attempts ≤ 3 ∧
      (out.result = [] → out.attempts = 3) := by
  have heval : rampLoop (fun _ => .ok ([] : List (List Char × Candidate ℚ)))
      (35 / 100) 0 2 = .ok ⟨[], 3 / 20, 3, [3 / 10, 1 / 4, 1 / 5]⟩ := by decide
  obtain ⟨h1, h2, h3⟩ := c2_ramp_bound (fun _ => .ok []) (35 / 100) 0 _ heval
  exact ⟨_, heval, rfl, rfl, h1, h2, h3⟩

end

/-! ### C3 — a fully empty 5-page search terminates and fails -/

/-- C3: when every page yields zero candidates (and the accumulator starts
nonnegative, as in the application's call, so that every filtering attempt
returns an empty set rather than failing validation), `find_viable_product`
completes exactly 5 page iterations — the page loop returns normally, with
the ghost page counter at 5 — and then fails with the no-products error
because the accumulated description list is empty. -/
theorem c3_five_pages_then_failure (pageInfo : Nat → List ProductInfo)
    (title : List Char) (ramp_down : ℚ)
    (hempty : ∀ p, pageInfo p = []) (hrd : 0 ≤ ramp_down) :
    find_viable_product pageInfo title ramp_down = .error .noProductsFound ∧
    ∃ acc, fvpLoop pageInfo title (List.range 5) (initAcc ramp_down) = .ok acc ∧
      acc.pages = 5 ∧ acc.descriptions = [] := by
  obtain ⟨acc, hloop, _, hpages, _, _, hdesc⟩ :=
    fvpLoop_props pageInfo title (List.range 5) (initAcc ramp_down) hrd
  have hdesc' : acc.descriptions = [] := hdesc (fun p _ => hempty p)
  refine ⟨?_, acc, hloop, ?_, hdesc'⟩
  · simp only [find_viable_product, hloop]
    rw [if_pos (by rw [hdesc']; exact List.isEmpty_nil)]
  · rw [hpages]
    rfl

/-- Witness for C3 at the concrete all-empty page source with the
application's initial accumulator `0`. -/
theorem c3_witness :
    find_viable_product (fun _ => []) ['t'] 0 = .error .noProductsFound ∧
    ∃ acc, fvpLoop (fun _ => []) ['t'] (List.range 5) (initAcc 0) = .ok acc ∧
      acc.pages = 5 ∧ acc.descriptions = [] :=
  c3_five_pages_then_failure (fun _ => []) ['t'] 0 (fun _ => rfl) (by norm_num)

/-! ### C9 — thresholds stay in `[0, 0.35]` (corrected: only for a
nonnegative initial accumulator) -/

/-- Counterexample to C9 as stated: `ramp_down` is caller-supplied, and for
the initial value `-1` the first ramp-down re-filter runs at threshold
`max(0, 0.35 - (-1 + 0.05)) = 1.3 > 0.35`, so the threshold-range
validation fails and the search aborts with the invalid-threshold error. -/
theorem c9_counterexample :
    find_viable_product (fun _ => []) ['t'] (-1) =
      .error .invalidSimilarityThreshold := by
  have hbase : listing_product_similarity (fun _ => []) 0 ['t'] (35 / 100) =
      .ok [] :=
    lps_empty_page _ 0 ['t'] (35 / 100) rfl (by norm_num) (by norm_num)
  have hthr : max 0 ((35 : ℚ) / 100 - (-1 + 5 / 100)) = 13 / 10 := by
    rw [max_eq_right (by norm_num)]
    norm_num
  have hramp : listing_product_similarity (fun _ => ([] : List ProductInfo)) 0 ['t']
      (max 0 (35 / 100 - (-1 + 5 / 100))) = .error .invalidSimilarityThreshold := by
    rw [hthr]
    unfold listing_product_similarity
    exact filter_products_err _ _ _ (Or.inr (by norm_num))
  have hpage : fvpPage (fun _ => []) ['t'] (initAcc (-1)) 0 =
      .error .invalidSimilarityThreshold := by
    simp only [fvpPage, hbase, List.isEmpty_nil, if_pos, rampLoop]
    rw [show (initAcc (-1 : ℚ)).ramp_down = -1 from rfl]
    rw [hramp]
  have hrange : List.range 5 = [0, 1, 2, 3, 4] := by decide
  unfold find_viable_product
  rw [hrange]
  simp only [fvpLoop, hpage]

/-- C9 (amended): whenever the initial ramp-down accumulator is
nonnegative — as in the application's only call, which passes `0.0` — every
similarity threshold that `find_viable_product` passes to
`filter_products_by_similarity` lies in `[0, 0.35]`, and the search never
fails threshold validation. -/
theorem c9_thresholds_clamped (pageInfo : Nat → List ProductInfo)
    (title : List Char) (ramp_down : ℚ) (hrd : 0 ≤ ramp_down) :
    ∃ acc, fvpLoop pageInfo title (List.range 5) (initAcc ramp_down) = .ok acc ∧
      (∀ t ∈ acc.thresholds, 0 ≤ t ∧ t ≤ 35 / 100) ∧
      find_viable_product pageInfo title ramp_down ≠
        .error .invalidSimilarityThreshold := by
  obtain ⟨acc, hloop, _, _, ⟨ts, hts, htsb⟩, _, _⟩ :=
    fvpLoop_props pageInfo title (List.range 5) (initAcc ramp_down) hrd
  refine ⟨acc, hloop, ?_, ?_⟩
  · intro t ht
    rw [hts] at ht
    exact htsb t (by simpa [initAcc] using ht)
  · simp only [find_viable_product, hloop]
    by_cases hd : acc.descriptions.isEmpty
    · rw [if_pos hd]
      intro hc
      exact absurd ((Except.error.injEq _ _).mp hc) (by simp)
    · rw [if_neg hd]
      intro hc
      exact absurd hc (by simp)

/-- Witness for C9's amended statement at the application's actual initial
accumulator `0`. -/
theorem c9_witness :
    ∃ acc, fvpLoop (fun _ => []) ['t'] (List.range 5) (initAcc 0) = .ok acc ∧
      (∀ t ∈ acc.thresholds, 0 ≤ t ∧ t ≤ 35 / 100) ∧
      find_viable_product (fun _ => []) ['t'] 0 ≠
        .error .invalidSimilarityThreshold :=
  c9_thresholds_clamped (fun _ => []) ['t'] 0 (by norm_num)

/-! ### C5 — the MAD outlier filter (corrected: the identical-values clause
needs `m > 0`) -/

/-- `getD` through a pointwise division. -/
theorem getD_map_div (l : List ℚ) (mad : ℚ) :
    ∀ i, (l.map (fun d => d / mad)).getD i 0 = l.getD i 0 / mad := by
  induction l with
  | nil =>
    intro i
    simp [zero_div]
  | cons x xs ih =>
    intro i
    cases i with
    | zero => rfl
    | succ i => simpa using ih i

/-- Members of an insertion come from the inserted element or the list. -/
theorem insertRat_mem (x y : ℚ) (l : List ℚ) (h : x ∈ insertRat y l) :
    x = y ∨ x ∈ l := by
  induction l with
  | nil =>
    rcases List.mem_singleton.mp h with rfl
    exact Or.inl rfl
  | cons z zs ih =>
    unfold insertRat at h
    by_cases hc : y ≤ z
    · rw [if_pos hc] at h
      rcases List.mem_cons.mp h with h1 | h2
      · exact Or.inl h1
      · exact Or.inr h2
    · rw [if_neg hc] at h
      rcases List.mem_cons.mp h with h1 | h2
      · exact Or.inr (by rw [h1]; exact List.mem_cons_self z zs)
      · rcases ih h2 with h3 | h4
        · exact Or.inl h3
        · exact Or.inr (List.mem_cons_of_mem z h4)

/-- Members of the sort come from the list. -/
theorem sortRats_mem (x : ℚ) (l : List ℚ) (h : x ∈ sortRats l) : x ∈ l := by
  induction l with
  | nil => exact absurd h (List.not_mem_nil x)
  | cons z zs ih =>
    unfold sortRats at h
    rcases insertRat_mem x z (sortRats zs) h with h1 | h2
    · rw [h1]
      exact List.mem_cons_self z zs
    · exact List.mem_cons_of_mem z (ih h2)

/-- Insertion adds one to the length. -/
theorem insertRat_length (y : ℚ) (l : List ℚ) :
    (insertRat y l).length = l.length + 1 := by
  induction l with
  | nil => rfl
  | cons z zs ih =>
    unfold insertRat
    by_cases hc : y ≤ z
    · rw [if_pos hc]
      rfl
    · rw [if_neg hc]
      simp [ih]

/-- Sorting preserves length. -/
theorem sortRats_length (l : List ℚ) : (sortRats l).length = l.length := by
  induction l with
  | nil => rfl
  | cons z zs ih =>
    unfold sortRats
    rw [insertRat_length, ih]
    rfl

/-- `getD` on a constant list below its length. -/
theorem getD_all_eq (l : List ℚ) (c : ℚ) (hall : ∀ x ∈ l, x = c) :
    ∀ i, i < l.length → l.getD i 0 = c := by
  induction l with
  | nil =>
    intro i hi
    exact absurd hi (by simp)
  | cons z zs ih =>
    intro i hi
    cases i with
    | zero => exact hall z (List.mem_cons_self z zs)
    | succ i =>
      have : i < zs.length := by simpa using hi
      simpa using ih (fun x hx => hall x (List.mem_cons_of_mem z hx)) i this

/-- The median of a nonempty constant list is that constant. -/
theorem npMedian_const (l : List ℚ) (c : ℚ) (hne : l ≠ [])
    (hall : ∀ x ∈ l, x = c) : npMedian l = c := by
  have hlen : 0 < l.length := List.length_pos.mpr hne
  have hsorted : ∀ x ∈ sortRats l, x = c := fun x hx => hall x (sortRats_mem x l hx)
  unfold npMedian
  by_cases hodd : l.length % 2 = 1
  · rw [if_pos hodd]
    exact getD_all_eq (sortRats l) c hsorted _ (by rw [sortRats_length]; omega)
  · rw [if_neg hodd]
    have h2 : 2 ≤ l.length := by omega
    rw [getD_all_eq (sortRats l) c hsorted (l.length / 2 - 1)
        (by rw [sortRats_length]; omega),
      getD_all_eq (sortRats l) c hsorted (l.length / 2)
        (by rw [sortRats_length]; omega)]
    ring

section
attribute [local semireducible] Rat.add Rat.mul Rat.sub Rat.inv

/-- Counterexample to C5 as stated: the claim's "for every sample whose
values are all identical the returned index set is empty" fails at `m = 0`:
every deviation is `0 ≥ m`, so the degenerate branch reports **all**
indices. -/
theorem c5_counterexample :
    reject_outliers [5, 5] 0 = [0, 1] ∧ reject_outliers [5, 5] 0 ≠ [] := by
  constructor
  · decide
  · decide

/-- C5 (amended): `reject_outliers` returns, in strictly ascending order,
exactly the indices satisfying the MAD rule (`d[i] ≥ m` when
`np.isclose(mad, 0)`, `d[i]/mad ≥ m` otherwise); in particular
`reject_outliers [1,1,1,10] 1.5 = [3]`, and every sample of identical
values yields the empty index set for every `m > 0`. -/
theorem c5_reject_outliers :
    (∀ (data : List ℚ) (m : ℚ),
      List.Pairwise (· < ·) (reject_outliers data m) ∧
      ∀ i, i ∈ reject_outliers data m ↔ i < data.length ∧
        (if |npMedian (data.map (fun x => |x - npMedian data|)) - 0| ≤
            1 / 100000000 + 1 / 100000 * |(0 : ℚ)| then
          m ≤ (data.map (fun x => |x - npMedian data|)).getD i 0
        else
          m ≤ (data.map (fun x => |x - npMedian data|)).getD i 0 /
            npMedian (data.map (fun x => |x - npMedian data|)))) ∧
    reject_outliers [1, 1, 1, 10] (3 / 2) = [3] ∧
    (∀ (data : List ℚ) (c m : ℚ), data ≠ [] → (∀ x ∈ data, x = c) → 0 < m →
      reject_outliers data m = []) := by
  refine ⟨?_, by decide, ?_⟩
  · intro data m
    constructor
    · simp only [reject_outliers]
      by_cases hz : data.length = 0
      · rw [if_pos hz]
        exact List.Pairwise.nil
      · rw [if_neg hz]
        by_cases hclose : |npMedian (data.map (fun x => |x - npMedian data|)) - 0| ≤
            1 / 100000000 + 1 / 100000 * |(0 : ℚ)|
        · rw [if_pos hclose]
          exact List.Pairwise.sublist (List.filter_sublist _) (List.pairwise_lt_range _)
        · rw [if_neg hclose]
          exact List.Pairwise.sublist (List.filter_sublist _) (List.pairwise_lt_range _)
    · intro i
      simp only [reject_outliers]
      by_cases hz : data.length = 0
      · rw [if_pos hz]
        simp [hz]
      · rw [if_neg hz]
        by_cases hclose : |npMedian (data.map (fun x => |x - npMedian data|)) - 0| ≤
            1 / 100000000 + 1 / 100000 * |(0 : ℚ)|
        · rw [if_pos hclose, if_pos hclose]
          simp [List.mem_filter, List.mem_range]
        · rw [if_neg hclose, if_neg hclose]
          simp only [List.mem_filter, List.mem_range, decide_eq_true_eq]
          rw [getD_map_div]
  · intro data c m hne hall hm
    have hmed : npMedian data = c := npMedian_const data c hne hall
    have hdist : ∀ x ∈ data.map (fun x => |x - npMedian data|), x = 0 := by
      intro x hx
      obtain ⟨y, hy, he⟩ := List.mem_map.mp hx
      rw [← he, hmed, hall y hy]
      simp
    have hdistne : data.map (fun x => |x - npMedian data|) ≠ [] := by
      intro hc
      exact hne (List.map_eq_nil_iff.mp hc)
    have hmad : npMedian (data.map (fun x => |x - npMedian data|)) = 0 :=
      npMedian_const _ 0 hdistne hdist
    simp only [reject_outliers]
    rw [if_neg (by intro hc; exact hne (List.length_eq_zero.mp hc))]
    rw [if_pos (by rw [hmad]; norm_num)]
    rw [List.filter_eq_nil_iff]
    intro i hi
    have hilt : i < data.length := List.mem_range.mp hi
    have hgd : (data.map (fun x => |x - npMedian data|)).getD i 0 = 0 :=
      getD_all_eq _ 0 hdist i (by simpa using hilt)
    simp only [hgd, decide_eq_true_eq]
    intro hc
    exact absurd (lt_of_lt_of_le hm hc) (by norm_num)

end

/-- Witness for C5's amended identical-values clause at `[5, 5]`, `m = 1`. -/
theorem c5_witness :
    (([5, 5] : List ℚ) ≠ []) ∧ reject_outliers [5, 5] 1 = [] :=
  ⟨by simp, c5_reject_outliers.2.2 [5, 5] 5 1 (by simp)
    (by intro x hx; rcases List.mem_cons.mp hx with h | h
        · exact h
        · rcases List.mem_singleton.mp h with rfl; rfl) (by norm_num)⟩

/-! ### C4 — self-similarity of the text scorer -/

theorem b2jRaw_mem (u : List Char) (c : Char) (j : Nat) :
    j ∈ b2jRaw u c ↔ j < u.length ∧ u.getD j ' ' = c := by
  simp [b2jRaw, List.mem_filter, List.mem_range]

theorem b2jRaw_pairwise (u : List Char) (c : Char) :
    (b2jRaw u c).Pairwise (· < ·) :=
  (List.pairwise_lt_range _).filter _

theorem b2j_mem (u : List Char) (c : Char) (j : Nat) (h : j ∈ b2j u c) :
    j < u.length ∧ u.getD j ' ' = c := by
  unfold b2j at h
  by_cases hp : isPopular u c
  · rw [if_pos hp] at h
    exact absurd h (List.not_mem_nil j)
  · rw [if_neg hp] at h
    exact (b2jRaw_mem u c j).mp h

theorem b2j_pairwise (u : List Char) (c : Char) :
    (b2j u c).Pairwise (· < ·) := by
  unfold b2j
  by_cases hp : isPopular u c
  · rw [if_pos hp]
    exact List.Pairwise.nil
  · rw [if_neg hp]
    exact b2jRaw_pairwise u c

/-- Membership in a nonempty `b2j` list transfers to every other index of
the same character. -/
theorem b2j_mem_of_mem (u : List Char) (c : Char) (j i : Nat)
    (hj : j ∈ b2j u c) (hi : i < u.length) (hc : u.getD i ' ' = c) :
    i ∈ b2j u c := by
  unfold b2j at hj ⊢
  by_cases hp : isPopular u c
  · rw [if_pos hp] at hj
    exact absurd hj (List.not_mem_nil j)
  · rw [if_neg hp]
    exact (b2jRaw_mem u c i).mpr ⟨hi, hc⟩

theorem runlen_zero_of_not (u : List Char) (alo ahi i j : Nat)
    (h : ¬ selfOk u alo ahi i j = true) : runlen u alo ahi i j = 0 := by
  match i with
  | 0 => simp only [runlen, if_neg h]
  | i + 1 => simp only [runlen, if_neg h]

theorem runlen_le_row (u : List Char) (alo ahi : Nat) :
    ∀ i j, runlen u alo ahi i j ≤ i + 1 - alo := by
  intro i
  induction i with
  | zero =>
    intro j
    simp only [runlen]
    by_cases h : selfOk u alo ahi 0 j = true
    · rw [if_pos h]
      have : alo ≤ 0 := by
        simp only [selfOk, Bool.and_eq_true, decide_eq_true_eq] at h
        exact h.1.1.1
      omega
    · rw [if_neg h]
      omega
  | succ i ih =>
    intro j
    simp only [runlen]
    by_cases h : selfOk u alo ahi (i + 1) j = true
    · rw [if_pos h]
      have halo : alo ≤ i + 1 := by
        simp only [selfOk, Bool.and_eq_true, decide_eq_true_eq] at h
        exact h.1.1.1
      by_cases hj : j = 0
      · rw [if_pos hj]
        omega
      · rw [if_neg hj]
        have := ih (j - 1)
        omega
    · rw [if_neg h]
      omega

/-- The dominating diagonal copy of a visited off-diagonal cell is itself a
visited cell. -/
theorem selfOk_diag (u : List Char) (alo ahi i j : Nat)
    (h : selfOk u alo ahi i j = true) (hij : i ≠ j) :
    selfOk u alo ahi (min i j) (min i j) = true := by
  simp only [selfOk, Bool.and_eq_true, decide_eq_true_eq] at h ⊢
  obtain ⟨⟨⟨hai, haj⟩, hja⟩, hmem⟩ := h
  obtain ⟨hjlen, hjc⟩ := b2j_mem u _ j hmem
  rcases Nat.lt_or_ge i j with hij | hij
  · -- `min = i`: the diagonal cell `(i, i)` shares the row's character.
    rw [min_eq_left (le_of_lt hij)]
    refine ⟨⟨⟨hai, hai⟩, lt_trans hij hja⟩, ?_⟩
    exact b2j_mem_of_mem u _ j i hmem (lt_trans hij hjlen) rfl
  · -- `min = j`: the diagonal cell `(j, j)` has `u[j] = u[i]`.
    rw [min_eq_right hij]
    refine ⟨⟨⟨haj, haj⟩, hja⟩, ?_⟩
    rw [hjc]
    exact b2j_mem_of_mem u _ j j hmem hjlen hjc

/-- Copy lemma: the run ending at any cell is no longer than the diagonal
run ending at the cell's diagonal projection. -/
theorem runlen_copy (u : List Char) (alo ahi : Nat) :
    ∀ i j, runlen u alo ahi i j ≤ runlen u alo ahi (min i j) (min i j) := by
  intro i
  induction i with
  | zero =>
    intro j
    by_cases h : selfOk u alo ahi 0 j = true
    · by_cases hj : j = 0
      · subst hj
        exact le_refl _
      · have hd := selfOk_diag u alo ahi 0 j h (fun hc => hj hc.symm)
        rw [Nat.min_eq_left (Nat.zero_le j)] at hd ⊢
        simp only [runlen, if_pos h, if_pos hd]
        exact le_refl 1
    · rw [runlen_zero_of_not u alo ahi 0 j h]
      exact Nat.zero_le _
  | succ i ih =>
    intro j
    by_cases h : selfOk u alo ahi (i + 1) j = true
    · by_cases hij : i + 1 = j
      · subst hij
        rw [min_self]
      · have hd := selfOk_diag u alo ahi (i + 1) j h hij
        match j with
        | 0 =>
          rw [Nat.min_eq_right (Nat.zero_le _)] at hd ⊢
          simp only [runlen, if_pos h, if_pos hd, if_pos rfl]
          simp
        | j + 1 =>
          have hmin : min (i + 1) (j + 1) = min i j + 1 := by omega
          rw [hmin] at hd ⊢
          have hstep : runlen u alo ahi (min i j + 1) (min i j + 1) =
              runlen u alo ahi (min i j) (min i j) + 1 := by
            simp only [runlen, if_pos hd]
            rw [if_neg (Nat.succ_ne_zero _)]
            simp
          rw [hstep]
          simp only [runlen, if_pos h, if_neg (Nat.succ_ne_zero j)]
          simp only [Nat.add_sub_cancel]
          exact Nat.succ_le_succ (ih j)
    · rw [runlen_zero_of_not u alo ahi (i + 1) j h]
      exact Nat.zero_le _

theorem runlen_zero_of_lt_alo (u : List Char) (alo ahi i j : Nat)
    (h : j < alo) : runlen u alo ahi i j = 0 := by
  apply runlen_zero_of_not
  simp only [selfOk, Bool.and_eq_true, decide_eq_true_eq]
  intro hc
  exact absurd hc.1.1.2 (by omega)

theorem runlen_zero_of_ge_ahi (u : List Char) (alo ahi i j : Nat)
    (h : ahi ≤ j) : runlen u alo ahi i j = 0 := by
  apply runlen_zero_of_not
  simp only [selfOk, Bool.and_eq_true, decide_eq_true_eq]
  intro hc
  exact absurd hc.1.2 (by omega)

theorem runlen_zero_of_not_mem (u : List Char) (alo ahi i j : Nat)
    (h : j ∉ b2j u (u.getD i ' ')) : runlen u alo ahi i j = 0 := by
  apply runlen_zero_of_not
  simp only [selfOk, Bool.and_eq_true, decide_eq_true_eq]
  intro hc
  exact absurd hc.2 h

/-- The first processed row sees an all-zero `j2len`, and the recurrence
degenerates to the indicator of `selfOk`. -/
theorem runlen_first_row (u : List Char) (alo ahi : Nat) (j : Nat) :
    runlen u alo ahi alo j = if selfOk u alo ahi alo j then 1 else 0 := by
  match halo : alo with
  | 0 => simp only [runlen]
  | a + 1 =>
    simp only [runlen]
    by_cases h : selfOk u (a + 1) ahi (a + 1) j = true
    · rw [if_pos h, if_pos h]
      by_cases hj : j = 0
      · rw [if_pos hj]
      · rw [if_neg hj]
        rw [runlen_zero_of_not]
        simp only [selfOk, Bool.and_eq_true, decide_eq_true_eq]
        intro hc
        omega
    · rw [if_neg h, if_neg h]

/-- Invariant run of `find_longest_match`'s inner loop on the
self-comparison: the produced `newj2len` is exactly `runlen` at the current
row, and the best block stays on the diagonal with its endpoints inside the
window. -/
theorem flmInner_run (u : List Char) (alo ahi i : Nat)
    (hi : alo ≤ i) (hia : i < ahi) (j2len : Nat → Nat)
    (hstep : ∀ j, selfOk u alo ahi i j = true →
      (if j = 0 then 0 else j2len (j - 1)) + 1 = runlen u alo ahi i j) :
    ∀ (L : List Nat), (∀ j ∈ L, j ∈ b2j u (u.getD i ' ')) →
    L.Pairwise (· < ·) →
    ∀ (newj2len : Nat → Nat) (x k : Nat),
    (∀ j, j ∉ L → runlen u alo ahi i j ≤ k) →
    (∀ j, newj2len j = if j ∈ L then 0 else runlen u alo ahi i j) →
    (∀ i' j', i' < i → runlen u alo ahi i' j' ≤ k) →
    alo ≤ x → x + k ≤ ahi →
    ∃ x' k',
      (flmInner i alo ahi j2len L newj2len (x, x, k)).2 = (x', x', k') ∧
      (∀ j, (flmInner i alo ahi j2len L newj2len (x, x, k)).1 j =
        runlen u alo ahi i j) ∧
      alo ≤ x' ∧ x' + k' ≤ ahi ∧ k ≤ k' ∧
      (∀ j, runlen u alo ahi i j ≤ k') := by
  intro L
  induction L with
  | nil =>
    intro _ _ newj2len x k hnotin hN _ hx hxk
    refine ⟨x, k, rfl, ?_, hx, hxk, le_refl k, ?_⟩
    · intro j
      simp only [flmInner]
      rw [hN j, if_neg (List.not_mem_nil j)]
    · intro j
      exact hnotin j (List.not_mem_nil j)
  | cons j js ih =>
    intro hmem hpair newj2len x k hnotin hN hprevrows hx hxk
    have hjmem : j ∈ b2j u (u.getD i ' ') := hmem j (List.mem_cons_self j js)
    have hjtail : ∀ y ∈ js, j < y := (List.pairwise_cons.mp hpair).1
    by_cases hjlo : j < alo
    · -- skipped column
      have hz : runlen u alo ahi i j = 0 := runlen_zero_of_lt_alo u alo ahi i j hjlo
      simp only [flmInner, if_pos hjlo]
      apply ih (fun y hy => hmem y (List.mem_cons_of_mem j hy))
        (List.pairwise_cons.mp hpair).2 newj2len x k
      · intro jj hjj
        by_cases hjj2 : jj = j
        · rw [hjj2, hz]
          exact Nat.zero_le k
        · exact hnotin jj (fun hc => hjj ((List.mem_cons.mp hc).resolve_left hjj2))
      · intro jj
        rw [hN jj]
        by_cases hjj2 : jj = j
        · subst hjj2
          rw [if_pos (List.mem_cons_self jj js), hz]
          by_cases hin : jj ∈ js
          · rw [if_pos hin]
          · rw [if_neg hin]
        · by_cases hin : jj ∈ js
          · rw [if_pos hin, if_pos (List.mem_cons_of_mem j hin)]
          · rw [if_neg hin, if_neg (fun hc => hin ((List.mem_cons.mp hc).resolve_left hjj2))]
      · exact hprevrows
      · exact hx
      · exact hxk
    · by_cases hjhi : ahi ≤ j
      · -- the loop stops: every remaining column is outside the window
        have hrest0 : ∀ jj ∈ j :: js, runlen u alo ahi i jj = 0 := by
          intro jj hjj
          apply runlen_zero_of_ge_ahi
          rcases List.mem_cons.mp hjj with h1 | h2
          · omega
          · have := hjtail jj h2
            omega
        simp only [flmInner, if_neg hjlo, if_pos hjhi]
        refine ⟨x, k, rfl, ?_, hx, hxk, le_refl k, ?_⟩
        · intro jj
          rw [hN jj]
          by_cases hin : jj ∈ j :: js
          · rw [if_pos hin, hrest0 jj hin]
          · rw [if_neg hin]
        · intro jj
          by_cases hin : jj ∈ j :: js
          · rw [hrest0 jj hin]
            exact Nat.zero_le k
          · exact hnotin jj hin
      · -- a processed cell
        have hok : selfOk u alo ahi i j = true := by
          simp only [selfOk, Bool.and_eq_true, decide_eq_true_eq]
          exact ⟨⟨⟨hi, by omega⟩, by omega⟩, hjmem⟩
        have hknew : (if j = 0 then 0 else j2len (j - 1)) + 1 =
            runlen u alo ahi i j := hstep j hok
        have hrl1 : 1 ≤ runlen u alo ahi i j := by omega
        have hrow := runlen_le_row u alo ahi i j
        simp only [flmInner, if_neg hjlo, if_neg hjhi]
        by_cases hupd : k < (if j = 0 then 0 else j2len (j - 1)) + 1
        · -- the best block is improved: the cell must be diagonal
          rw [hknew] at hupd
          have hji : j = i := by
            by_contra hne
            have hcopy := runlen_copy u alo ahi i j
            rcases Nat.lt_or_ge i j with hlt | hge
            · rw [Nat.min_eq_left (le_of_lt hlt)] at hcopy
              have hnotmem : i ∉ j :: js := by
                intro hmem2
                rcases List.mem_cons.mp hmem2 with h1 | h2
                · exact hne h1.symm
                · have := hjtail i h2
                  omega
              have := hnotin i hnotmem
              omega
            · have hjlt : j < i := by omega
              rw [Nat.min_eq_right (le_of_lt hjlt)] at hcopy
              have := hprevrows j j hjlt
              omega
          have hcond : ((x, x, k) : Nat × Nat × Nat).2.2 <
              (if j = 0 then 0 else j2len (j - 1)) + 1 := by
            rw [hknew]
            exact hupd
          rw [if_pos hcond]
          subst hji
          -- the updated best is (j + 1 - rl, j + 1 - rl, rl)
          have harg1 : ∀ jj, jj ∉ js → runlen u alo ahi j jj ≤
              (if j = 0 then 0 else j2len (j - 1)) + 1 := by
            intro jj hjj
            by_cases hjj2 : jj = j
            · rw [hjj2, hknew]
            · have := hnotin jj
                (fun hc => hjj ((List.mem_cons.mp hc).resolve_left hjj2))
              omega
          have harg2 : ∀ jj,
              (if jj = j then (if j = 0 then 0 else j2len (j - 1)) + 1
                else newj2len jj) =
              if jj ∈ js then 0 else runlen u alo ahi j jj := by
            intro jj
            by_cases hjj2 : jj = j
            · subst hjj2
              rw [if_pos rfl,
                if_neg (fun hc => absurd (hjtail jj hc) (lt_irrefl jj)), hknew]
            · rw [if_neg hjj2, hN jj]
              by_cases hin : jj ∈ js
              · rw [if_pos hin, if_pos (List.mem_cons_of_mem j hin)]
              · rw [if_neg hin,
                  if_neg (fun hc => hin ((List.mem_cons.mp hc).resolve_left hjj2))]
          have harg3 : ∀ i' j', i' < j → runlen u alo ahi i' j' ≤
              (if j = 0 then 0 else j2len (j - 1)) + 1 := by
            intro i' j' hii
            have := hprevrows i' j' hii
            omega
          have harg4 : alo ≤ j + 1 - ((if j = 0 then 0 else j2len (j - 1)) + 1) := by
            rw [hknew]
            omega
          have harg5 : j + 1 - ((if j = 0 then 0 else j2len (j - 1)) + 1) +
              ((if j = 0 then 0 else j2len (j - 1)) + 1) ≤ ahi := by
            rw [hknew]
            omega
          obtain ⟨x', k', h1, h2, h3, h4, h5, h6⟩ :=
            ih (fun y hy => hmem y (List.mem_cons_of_mem j hy))
              (List.pairwise_cons.mp hpair).2
              (fun xx => if xx = j then (if j = 0 then 0 else j2len (j - 1)) + 1
                else newj2len xx)
              (j + 1 - ((if j = 0 then 0 else j2len (j - 1)) + 1))
              ((if j = 0 then 0 else j2len (j - 1)) + 1)
              harg1 harg2 harg3 harg4 harg5
          refine ⟨x', k', h1, h2, h3, h4, ?_, h6⟩
          rw [hknew] at h5
          omega
        · -- no improvement: the best block is unchanged
          have hcond : ¬ ((x, x, k) : Nat × Nat × Nat).2.2 <
              (if j = 0 then 0 else j2len (j - 1)) + 1 := hupd
          rw [if_neg hcond]
          have harg1 : ∀ jj, jj ∉ js → runlen u alo ahi i jj ≤ k := by
            intro jj hjj
            by_cases hjj2 : jj = j
            · rw [hjj2, ← hknew]
              omega
            · exact hnotin jj
                (fun hc => hjj ((List.mem_cons.mp hc).resolve_left hjj2))
          have harg2 : ∀ jj,
              (if jj = j then (if j = 0 then 0 else j2len (j - 1)) + 1
                else newj2len jj) =
              if jj ∈ js then 0 else runlen u alo ahi i jj := by
            intro jj
            by_cases hjj2 : jj = j
            · subst hjj2
              rw [if_pos rfl,
                if_neg (fun hc => absurd (hjtail jj hc) (lt_irrefl jj)), hknew]
            · rw [if_neg hjj2, hN jj]
              by_cases hin : jj ∈ js
              · rw [if_pos hin, if_pos (List.mem_cons_of_mem j hin)]
              · rw [if_neg hin,
                  if_neg (fun hc => hin ((List.mem_cons.mp hc).resolve_left hjj2))]
          exact ih (fun y hy => hmem y (List.mem_cons_of_mem j hy))
            (List.pairwise_cons.mp hpair).2
            (fun xx => if xx = j then (if j = 0 then 0 else j2len (j - 1)) + 1
              else newj2len xx) x k harg1 harg2 hprevrows hx hxk

/-- Invariant run of `find_longest_match`'s outer loop on the
self-comparison: the best block stays diagonal and inside the window. -/
theorem flmOuter_run (u : List Char) (alo ahi : Nat) :
    ∀ (m i : Nat) (j2len : Nat → Nat) (x k : Nat),
    alo ≤ i → i + m = ahi →
    (∀ j, selfOk u alo ahi i j = true →
      (if j = 0 then 0 else j2len (j - 1)) + 1 = runlen u alo ahi i j) →
    (∀ i' j', i' < i → runlen u alo ahi i' j' ≤ k) →
    alo ≤ x → x + k ≤ ahi →
    ∃ x' k',
      flmOuter u u alo ahi (List.range' i m) j2len (x, x, k) = (x', x', k') ∧
      alo ≤ x' ∧ x' + k' ≤ ahi := by
  intro m
  induction m with
  | zero =>
    intro i j2len x k _ _ _ _ hx hxk
    exact ⟨x, k, rfl, hx, hxk⟩
  | succ m ih =>
    intro i j2len x k hi him hstep hprevrows hx hxk
    have hia : i < ahi := by omega
    have hz : ∀ j, j ∉ b2j u (u.getD i ' ') → runlen u alo ahi i j = 0 :=
      fun j hj => runlen_zero_of_not_mem u alo ahi i j hj
    obtain ⟨x', k', h1, h2, h3, h4, h5, h6⟩ :=
      flmInner_run u alo ahi i hi hia j2len hstep
        (b2j u (u.getD i ' ')) (fun _ h => h)
        (b2j_pairwise u (u.getD i ' '))
        (fun _ => 0) x k
        (fun j hj => by rw [hz j hj]; exact Nat.zero_le k)
        (fun j => by
          by_cases hin : j ∈ b2j u (u.getD i ' ')
          · rw [if_pos hin]
          · rw [if_neg hin, hz j hin])
        hprevrows hx hxk
    rw [List.range'_succ]
    simp only [flmOuter]
    rw [h1]
    apply ih (i + 1)
      ((flmInner i alo ahi j2len (b2j u (u.getD i ' ')) (fun _ => 0) (x, x, k)).1)
      x' k' (by omega) (by omega)
    · intro j hok
      rw [h2 (j - 1)]
      simp only [runlen, if_pos hok]
    · intro i' j' hii
      rcases Nat.lt_or_ge i' i with hlt | hge
      · exact le_trans (hprevrows i' j' hlt) h5
      · have : i' = i := by omega
        rw [this]
        exact h6 j'
    · exact h3
    · exact h4

/-- The backward extension loop walks a diagonal block back to the window
start. -/
theorem extendBack_diag (u : List Char) (alo : Nat) :
    ∀ x k, alo ≤ x →
    extendBack u u (fun _ => false) alo alo false x x k =
      (alo, alo, k + (x - alo)) := by
  intro x
  induction x with
  | zero =>
    intro k h
    have : alo = 0 := by omega
    subst this
    rfl
  | succ x ih =>
    intro k h
    simp only [extendBack]
    by_cases hlt : alo < x + 1
    · rw [if_pos ⟨hlt, hlt, by trivial, by simp⟩]
      have := ih (k + 1) (by omega)
      simp only [Nat.add_sub_cancel]
      rw [this]
      have : k + 1 + (x - alo) = k + (x + 1 - alo) := by omega
      rw [this]
    · rw [if_neg (fun hc => absurd hc.1 hlt)]
      have : alo = x + 1 := by omega
      rw [← this]
      have : k + (alo - alo) = k := by omega
      rw [this]

/-- With an empty junk set, the junk-side extension loops do nothing. -/
theorem extendBack_junk_noop (u : List Char) (alo blo : Nat) :
    ∀ bi bj k, extendBack u u (fun _ => false) alo blo true bi bj k =
      (bi, bj, k) := by
  intro bi bj k
  match bi with
  | 0 => rfl
  | bi + 1 =>
    simp only [extendBack]
    rw [if_neg]
    intro hc
    exact absurd hc.2.2.1 (by simp)

/-- The forward extension loop walks a diagonal block to the window end. -/
theorem extendFwdAux_diag (u : List Char) (alo ahi : Nat) :
    ∀ gas K, alo + K + gas = ahi →
    extendFwdAux u u (fun _ => false) ahi ahi false alo alo gas K =
      ahi - alo := by
  intro gas
  induction gas with
  | zero =>
    intro K h
    simp only [extendFwdAux]
    omega
  | succ gas ih =>
    intro K h
    simp only [extendFwdAux]
    rw [if_pos ⟨by omega, by omega, by trivial, by trivial⟩]
    exact ih (K + 1) (by omega)

/-- `find_longest_match` on the self-comparison window returns the whole
diagonal. -/
theorem flm_self (u : List Char) (alo ahi : Nat) (h : alo ≤ ahi) :
    find_longest_match u u (fun _ => false) alo ahi alo ahi =
      (alo, alo, ahi - alo) := by
  obtain ⟨x', k', h1, h2, h3⟩ :=
    flmOuter_run u alo ahi (ahi - alo) alo (fun _ => 0) alo 0
      (le_refl alo) (by omega)
      (fun j hok => by
        rw [runlen_first_row u alo ahi j, if_pos hok]
        simp)
      (fun i' j' hii => by
        rw [runlen_zero_of_not u alo ahi i' j']
        simp only [selfOk, Bool.and_eq_true, decide_eq_true_eq]
        intro hc
        omega)
      (le_refl alo) (by omega)
  simp only [find_longest_match]
  rw [h1]
  simp only
  rw [extendBack_diag u alo x' k' h2]
  simp only [extendFwd]
  rw [extendFwdAux_diag u alo ahi _ _ (by omega)]
  rw [extendBack_junk_noop]
  simp only [extendFwd]
  have : ahi - (alo + (ahi - alo)) = 0 := by omega
  rw [this]
  simp only [extendFwdAux]

/-- One `get_matching_blocks` queue step that finds an empty block. -/
theorem gmbAux_step_zero (a b : List Char) (junk : Char → Bool)
    (f alo ahi blo bhi : Nat) (rest : List (Nat × Nat × Nat × Nat))
    (acc : List MatchBlock) (x y : Nat)
    (hflm : find_longest_match a b junk alo ahi blo bhi = (x, y, 0)) :
    gmbAux a b junk (f + 1) ((alo, ahi, blo, bhi) :: rest) acc =
      gmbAux a b junk f rest acc := by
  simp only [gmbAux, hflm]
  rw [if_pos (by trivial)]

/-- One `get_matching_blocks` queue step that finds a nonempty block. -/
theorem gmbAux_step_pos (a b : List Char) (junk : Char → Bool)
    (f alo ahi blo bhi : Nat) (rest : List (Nat × Nat × Nat × Nat))
    (acc : List MatchBlock) (x y k : Nat) (hk : k ≠ 0)
    (hflm : find_longest_match a b junk alo ahi blo bhi = (x, y, k)) :
    gmbAux a b junk (f + 1) ((alo, ahi, blo, bhi) :: rest) acc =
      gmbAux a b junk f ((x + k, ahi, y + k, bhi) :: (alo, x, blo, y) :: rest)
        (⟨x, y, k⟩ :: acc) := by
  simp only [gmbAux, hflm]
  rw [if_neg hk]

/-- `get_matching_blocks` on the self-comparison: the whole string is one
block, followed by the sentinel. -/
theorem gmb_self (u : List Char) (m : Nat) (hm : u.length = m + 1) :
    get_matching_blocks u u (fun _ => false) =
      [⟨0, 0, m + 1⟩, ⟨m + 1, m + 1, 0⟩] := by
  have h1 : find_longest_match u u (fun _ => false) 0 (m + 1) 0 (m + 1) =
      (0, 0, m + 1) := by
    have := flm_self u 0 (m + 1) (Nat.zero_le _)
    simpa using this
  have h2 : find_longest_match u u (fun _ => false) (m + 1) (m + 1) (m + 1)
      (m + 1) = (m + 1, m + 1, 0) := by
    have := flm_self u (m + 1) (m + 1) (le_refl _)
    simpa using this
  have h3 : find_longest_match u u (fun _ => false) 0 0 0 0 = (0, 0, 0) := by
    have := flm_self u 0 0 (le_refl 0)
    simpa using this
  have hfuel : 2 * u.length + 1 = (2 * m + 1 + 1) + 1 := by omega
  have hblocks : gmbAux u u (fun _ => false) (2 * u.length + 1)
      [(0, u.length, 0, u.length)] [] = [⟨0, 0, m + 1⟩] := by
    rw [hfuel, hm]
    rw [gmbAux_step_pos u u (fun _ => false) (2 * m + 1 + 1) 0 (m + 1) 0 (m + 1)
      _ _ 0 0 (m + 1) (Nat.succ_ne_zero m) h1]
    simp only [Nat.zero_add]
    rw [gmbAux_step_zero u u (fun _ => false) (2 * m + 1) (m + 1) (m + 1)
      (m + 1) (m + 1) _ _ (m + 1) (m + 1) h2]
    rw [gmbAux_step_zero u u (fun _ => false) (2 * m) 0 0 0 0 _ _ 0 0 h3]
    simp only [gmbAux]
  simp only [get_matching_blocks]
  rw [hblocks, hm]
  simp only [sortBlocks, insertBlock, mergeAdjAux]
  rw [if_pos (by simp)]
  simp only [Nat.zero_add]
  rw [if_pos (Nat.succ_ne_zero m)]
  rfl

/-- `SequenceMatcher.ratio` of a string against itself is `1`. -/
theorem sequenceMatcherRatio_self (u : List Char) :
    sequenceMatcherRatio u u = 1 := by
  match hm : u.length with
  | 0 =>
    have hu : u = [] := List.length_eq_zero.mp hm
    subst hu
    rfl
  | m + 1 =>
    simp only [sequenceMatcherRatio, gmb_self u m hm, hm]
    simp only [List.map_cons, List.map_nil, List.sum_cons, List.sum_nil]
    simp only [calculateRatio]
    rw [if_pos (by omega)]
    push_cast
    have : ((m : ℚ) + 1) + (m + 1) ≠ 0 := by positivity
    field_simp
    ring

/-- C4: the text similarity scorer gives `similarity(s, s) = 1` for every
non-empty string `s` (the normalization applied to both arguments is the
same, and `SequenceMatcher` recovers the full diagonal even under the
autojunk heuristic, whose popular characters are absent from `b2j` but are
still crossed by the extension loops). -/
theorem c4_self_similarity (s : List Char) (h : s ≠ []) :
    get_similarity s s = 1 := by
  simp only [get_similarity]
  exact sequenceMatcherRatio_self _

theorem c4_witness :
    (['a', 'b', 'c'] : List Char) ≠ [] ∧
      get_similarity ['a', 'b', 'c'] ['a', 'b', 'c'] = 1 :=
  ⟨by decide, c4_self_similarity ['a', 'b', 'c'] (by decide)⟩

/-! ### C10 — formatted prices are compared lexicographically -/

section

attribute [local semireducible] Rat.add Rat.mul Rat.sub Rat.inv

set_option maxHeartbeats 2000000 in
/-- C10: the search returns prices and shipping as 2-decimal
thousands-separated strings, `construct_candidates` stores those strings
unchanged in the candidates' price and shipping fields, and the min-price
tie-break of `lowest_price_highest_similarity` compares them with the
generic `<`, which on strings is lexicographic: `"1,000.00" < "99.00"`
(because `'1' < '9'`), so with equal similarities the numerically larger
price `1000` is selected over `99`. -/
theorem c10_lexicographic_price_tiebreak :
    find_viable_product pageInfoC10 ['a', 'b'] 0 =
      .ok ⟨[['a', 'x'], ['x', 'b']],
        [['1', ',', '0', '0', '0', '.', '0', '0'], ['9', '9', '.', '0', '0']],
        [['2', '.', '0', '0'], ['3', '.', '0', '0']],
        [['u', 's'], ['u', 'k']],
        [['n', 'e', 'w'], ['o', 'l', 'd']],
        [1 / 2, 1 / 2]⟩ ∧
    construct_candidates [['a', 'x'], ['x', 'b']]
        [['1', ',', '0', '0', '0', '.', '0', '0'], ['9', '9', '.', '0', '0']]
        [['2', '.', '0', '0'], ['3', '.', '0', '0']]
        [['u', 's'], ['u', 'k']] [['n', 'e', 'w'], ['o', 'l', 'd']]
        [1 / 2, 1 / 2] =
      .ok [(['a', 'x'], ⟨['1', ',', '0', '0', '0', '.', '0', '0'],
              ['2', '.', '0', '0'], ['u', 's'], ['n', 'e', 'w'], 1 / 2⟩),
           (['x', 'b'], ⟨['9', '9', '.', '0', '0'],
              ['3', '.', '0', '0'], ['u', 'k'], ['o', 'l', 'd'], 1 / 2⟩)] ∧
    lowest_price_highest_similarity
        [(['a', 'x'], ⟨['1', ',', '0', '0', '0', '.', '0', '0'],
            ['2', '.', '0', '0'], ['u', 's'], ['n', 'e', 'w'], 1 / 2⟩),
         (['x', 'b'], ⟨['9', '9', '.', '0', '0'],
            ['3', '.', '0', '0'], ['u', 'k'], ['o', 'l', 'd'], 1 / 2⟩)] =
      .ok (['a', 'x'], ⟨['1', ',', '0', '0', '0', '.', '0', '0'],
            ['2', '.', '0', '0'], ['u', 's'], ['n', 'e', 'w'], 1 / 2⟩) ∧
    (['1', ',', '0', '0', '0', '.', '0', '0'] : List Char) <
      ['9', '9', '.', '0', '0'] ∧
    ¬ ((['9', '9', '.', '0', '0'] : List Char) <
        ['1', ',', '0', '0', '0', '.', '0', '0']) ∧
    (99 : ℚ) < 1000 := by
  refine ⟨by decide, by decide, by decide, by decide, by decide, by decide⟩

end

/-! ### C8 — idempotence of title normalization -/

/-- `Char.toNat` of a valid `Char.ofNat`. -/
theorem char_toNat_ofNat_valid (n : Nat) (h : n.isValidChar) :
    (Char.ofNat n).toNat = n := by
  rw [Char.ofNat, dif_pos h]
  rfl

/-- `Char.toLower` on a non-uppercase character. -/
theorem toLower_eq_self_of_not_upper (c : Char)
    (h : ¬(65 ≤ c.toNat ∧ c.toNat ≤ 90)) : c.toLower = c := by
  simp only [Char.toLower]
  rw [if_neg h]

/-- `Char.toLower` on an uppercase character. -/
theorem toLower_of_upper (c : Char) (h : 65 ≤ c.toNat ∧ c.toNat ≤ 90) :
    c.toLower = Char.ofNat (c.toNat + 32) := by
  simp only [Char.toLower]
  rw [if_pos h]

/-- `Char.toLower` is idempotent. -/
theorem toLower_idem (c : Char) : c.toLower.toLower = c.toLower := by
  by_cases h : 65 ≤ c.toNat ∧ c.toNat ≤ 90
  · rw [toLower_of_upper c h]
    apply toLower_eq_self_of_not_upper
    rw [char_toNat_ofNat_valid _ (Or.inl (by omega))]
    omega
  · rw [toLower_eq_self_of_not_upper c h, toLower_eq_self_of_not_upper c h]

/-- A whitespace character is not an ASCII alphanumeric. -/
theorem ws_not_alnum (c : Char) (h : c.isWhitespace = true) :
    (c.isAlpha || c.isDigit) = false := by
  simp only [Char.isWhitespace, Bool.or_eq_true, decide_eq_true_eq] at h
  obtain ((h | h) | h) | h := h <;> rw [h] <;> decide

/-- Characters of `collapseNonAlnum l` are inserted spaces or in-class
characters of `l`. -/
theorem collapseNonAlnum_mem :
    ∀ (l : List Char), ∀ c ∈ collapseNonAlnum l,
      c = ' ' ∨ (c ∈ l ∧ isAlnumOrSpace c = true) := by
  have key : ∀ (n : Nat) (l : List Char), l.length ≤ n →
      ∀ c ∈ collapseNonAlnum l, c = ' ' ∨ (c ∈ l ∧ isAlnumOrSpace c = true) := by
    intro n
    induction n with
    | zero =>
      intro l hl c hc
      have hnil : l = [] := List.length_eq_zero.mp (Nat.le_zero.mp hl)
      subst hnil
      simp only [collapseNonAlnum] at hc
      exact absurd hc (List.not_mem_nil c)
    | succ n ih =>
      intro l hl c hc
      match l with
      | [] =>
        simp only [collapseNonAlnum] at hc
        exact absurd hc (List.not_mem_nil c)
      | x :: xs =>
        simp only [collapseNonAlnum] at hc
        by_cases hx : isAlnumOrSpace x
        · rw [if_pos hx] at hc
          rcases List.mem_cons.mp hc with h1 | h2
          · exact Or.inr ⟨by rw [h1]; exact List.mem_cons_self x xs, by rw [h1]; exact hx⟩
          · rcases ih xs (by simpa using hl) c h2 with h3 | ⟨h4, h5⟩
            · exact Or.inl h3
            · exact Or.inr ⟨List.mem_cons_of_mem x h4, h5⟩
        · rw [if_neg hx] at hc
          rcases List.mem_cons.mp hc with h1 | h2
          · exact Or.inl h1
          · have hlen : (xs.dropWhile (fun d => !isAlnumOrSpace d)).length ≤ n := by
              have := (List.dropWhile_sublist (l := xs)
                (fun d => !isAlnumOrSpace d)).length_le
              simp only [List.length_cons] at hl
              omega
            rcases ih _ hlen c h2 with h3 | ⟨h4, h5⟩
            · exact Or.inl h3
            · exact Or.inr ⟨List.mem_cons_of_mem x
                ((List.dropWhile_sublist _).subset h4), h5⟩
  intro l
  exact key l.length l (le_refl _)

/-- `collapseNonAlnum` is the identity on in-class strings. -/
theorem collapseNonAlnum_id (l : List Char)
    (h : ∀ c ∈ l, isAlnumOrSpace c = true) : collapseNonAlnum l = l := by
  induction l with
  | nil => simp only [collapseNonAlnum]
  | cons x xs ih =>
    simp only [collapseNonAlnum]
    rw [if_pos (h x (List.mem_cons_self x xs))]
    rw [ih (fun c hc => h c (List.mem_cons_of_mem x hc))]

/-- Characters of `collapseSpaces l` are collapsed spaces or non-space
characters of `l`. -/
theorem collapseSpaces_mem :
    ∀ (l : List Char), ∀ c ∈ collapseSpaces l,
      c = ' ' ∨ (c ∈ l ∧ c.isWhitespace = false) := by
  have key : ∀ (n : Nat) (l : List Char), l.length ≤ n →
      ∀ c ∈ collapseSpaces l, c = ' ' ∨ (c ∈ l ∧ c.isWhitespace = false) := by
    intro n
    induction n with
    | zero =>
      intro l hl c hc
      have hnil : l = [] := List.length_eq_zero.mp (Nat.le_zero.mp hl)
      subst hnil
      simp only [collapseSpaces] at hc
      exact absurd hc (List.not_mem_nil c)
    | succ n ih =>
      intro l hl c hc
      match l with
      | [] =>
        simp only [collapseSpaces] at hc
        exact absurd hc (List.not_mem_nil c)
      | x :: xs =>
        simp only [collapseSpaces] at hc
        by_cases hx : x.isWhitespace
        · rw [if_pos hx] at hc
          rcases List.mem_cons.mp hc with h1 | h2
          · exact Or.inl h1
          · have hlen : (xs.dropWhile Char.isWhitespace).length ≤ n := by
              have := (List.dropWhile_sublist (l := xs) Char.isWhitespace).length_le
              simp only [List.length_cons] at hl
              omega
            rcases ih _ hlen c h2 with h3 | ⟨h4, h5⟩
            · exact Or.inl h3
            · exact Or.inr ⟨List.mem_cons_of_mem x
                ((List.dropWhile_sublist _).subset h4), h5⟩
        · rw [if_neg hx] at hc
          rcases List.mem_cons.mp hc with h1 | h2
          · refine Or.inr ⟨by rw [h1]; exact List.mem_cons_self x xs, ?_⟩
            rw [h1]
            exact Bool.not_eq_true _ ▸ (by simpa using hx)
          · rcases ih xs (by simpa using hl) c h2 with h3 | ⟨h4, h5⟩
            · exact Or.inl h3
            · exact Or.inr ⟨List.mem_cons_of_mem x h4, h5⟩
  intro l
  exact key l.length l (le_refl _)

/-- The head of `collapseSpaces l` is the head of `l`, with a whitespace
head collapsed to a space. -/
theorem collapseSpaces_head (l : List Char) :
    (collapseSpaces l).head? =
      l.head?.map (fun c => if c.isWhitespace then ' ' else c) := by
  match l with
  | [] => simp only [collapseSpaces, List.head?_nil, Option.map_none']
  | x :: xs =>
    simp only [collapseSpaces]
    by_cases hx : x.isWhitespace
    · rw [if_pos hx]
      simp [hx]
    · rw [if_neg hx]
      simp [hx]

/-- No two adjacent whitespace characters survive `collapseSpaces`. -/
theorem collapseSpaces_chain :
    ∀ (l : List Char), List.Chain'
      (fun x y => ¬(x.isWhitespace = true ∧ y.isWhitespace = true))
      (collapseSpaces l) := by
  have key : ∀ (n : Nat) (l : List Char), l.length ≤ n →
      List.Chain' (fun x y => ¬(x.isWhitespace = true ∧ y.isWhitespace = true))
        (collapseSpaces l) := by
    intro n
    induction n with
    | zero =>
      intro l hl
      have hnil : l = [] := List.length_eq_zero.mp (Nat.le_zero.mp hl)
      subst hnil
      simp only [collapseSpaces]
      exact List.chain'_nil
    | succ n ih =>
      intro l hl
      match l with
      | [] =>
        simp only [collapseSpaces]
        exact List.chain'_nil
      | x :: xs =>
        simp only [collapseSpaces]
        by_cases hx : x.isWhitespace
        · rw [if_pos hx]
          rw [List.chain'_cons']
          have hlen : (xs.dropWhile Char.isWhitespace).length ≤ n := by
            have := (List.dropWhile_sublist (l := xs) Char.isWhitespace).length_le
            simp only [List.length_cons] at hl
            omega
          refine ⟨?_, ih _ hlen⟩
          intro y hy
          rw [collapseSpaces_head] at hy
          match hh : (xs.dropWhile Char.isWhitespace).head? with
          | none =>
            rw [hh] at hy
            exact absurd hy (by simp)
          | some z =>
            rw [hh] at hy
            have hz : ¬z.isWhitespace = true := by
              have := List.head?_dropWhile_not Char.isWhitespace xs
              rw [hh] at this
              simp only at this
              simp [this]
            simp only [Option.map_some', Option.mem_def, Option.some.injEq] at hy
            rw [if_neg hz] at hy
            intro hc
            rw [hy] at hz
            exact hz hc.2
        · rw [if_neg hx]
          rw [List.chain'_cons']
          refine ⟨?_, ih xs (by simpa using hl)⟩
          intro y hy
          intro hc
          exact hx hc.1
  intro l
  exact key l.length l (le_refl _)

/-- `collapseSpaces` is the identity on strings whose whitespace is exactly
single spaces. -/
theorem collapseSpaces_id :
    ∀ (l : List Char),
      (∀ c ∈ l, c.isWhitespace = true → c = ' ') →
      List.Chain' (fun x y => ¬(x = ' ' ∧ y = ' ')) l →
      collapseSpaces l = l := by
  intro l
  induction l with
  | nil =>
    intro _ _
    simp only [collapseSpaces]
  | cons x xs ih =>
    intro hall hch
    simp only [collapseSpaces]
    by_cases hx : x.isWhitespace
    · rw [if_pos hx]
      have hxsp : x = ' ' := hall x (List.mem_cons_self x xs) hx
      have hdrop : xs.dropWhile Char.isWhitespace = xs := by
        match xs with
        | [] => rfl
        | y :: ys =>
          apply List.dropWhile_cons_of_neg
          intro hyw
          have hysp : y = ' ' := hall y (List.mem_cons_of_mem x
            (List.mem_cons_self y ys)) hyw
          have := (List.chain'_cons'.mp hch).1 y (by simp)
          exact this ⟨hxsp, hysp⟩
      rw [hdrop, hxsp]
      rw [ih (fun c hc hw => hall c (List.mem_cons_of_mem x hc) hw)
        (List.chain'_cons'.mp hch).2]
    · rw [if_neg hx]
      rw [ih (fun c hc hw => hall c (List.mem_cons_of_mem x hc) hw)
        (List.chain'_cons'.mp hch).2]

/-- `pyStrip` is the identity when neither end is whitespace. -/
theorem pyStrip_id (l : List Char)
    (hh : ∀ c, l.head? = some c → c.isWhitespace = false)
    (hl : ∀ c, l.getLast? = some c → c.isWhitespace = false) :
    pyStrip l = l := by
  unfold pyStrip
  have h1 : l.dropWhile Char.isWhitespace = l := by
    match l with
    | [] => rfl
    | x :: xs =>
      apply List.dropWhile_cons_of_neg
      simp [hh x rfl]
  rw [h1]
  have h2 : l.reverse.dropWhile Char.isWhitespace = l.reverse := by
    match hrev : l.reverse with
    | [] => rfl
    | x :: xs =>
      apply List.dropWhile_cons_of_neg
      have : l.getLast? = some x := by
        rw [← List.head?_reverse, hrev]
        rfl
      simp [hl x this]
  rw [h2, List.reverse_reverse]

/-- Characters of `pyStrip l` come from `l`. -/
theorem pyStrip_subset (l : List Char) : ∀ c ∈ pyStrip l, c ∈ l := by
  intro c hc
  unfold pyStrip at hc
  rw [List.mem_reverse] at hc
  have h1 := (List.dropWhile_sublist (l := (l.dropWhile Char.isWhitespace).reverse)
    Char.isWhitespace).subset hc
  rw [List.mem_reverse] at h1
  exact (List.dropWhile_sublist _).subset h1

/-- The strip keeps the no-adjacent-spaces property. -/
theorem pyStrip_chain (l : List Char)
    (h : List.Chain' (fun x y => ¬(x = ' ' ∧ y = ' ')) l) :
    List.Chain' (fun x y => ¬(x = ' ' ∧ y = ' ')) (pyStrip l) := by
  unfold pyStrip
  have hsym : ∀ (u : List Char),
      List.Chain' (fun x y => ¬(x = ' ' ∧ y = ' ')) u →
      List.Chain' (fun x y => ¬(x = ' ' ∧ y = ' ')) u.reverse := by
    intro u hu
    rw [List.chain'_reverse]
    exact hu.imp (fun a b hab hc => hab ⟨hc.2, hc.1⟩)
  have hdw : ∀ (u : List Char),
      List.Chain' (fun x y => ¬(x = ' ' ∧ y = ' ')) u →
      List.Chain' (fun x y => ¬(x = ' ' ∧ y = ' '))
        (u.dropWhile Char.isWhitespace) := by
    intro u hu
    have : List.takeWhile Char.isWhitespace u ++
        List.dropWhile Char.isWhitespace u = u :=
      List.takeWhile_append_dropWhile _ _
    rw [← this] at hu
    exact (List.chain'_append.mp hu).2.1
  exact hsym _ (hdw _ (hsym _ (hdw _ h)))

/-- The head of `pyStrip l` is never whitespace. -/
theorem pyStrip_head (l : List Char) :
    ∀ c, (pyStrip l).head? = some c → c.isWhitespace = false := by
  intro c hc
  unfold pyStrip at hc
  rw [List.head?_reverse] at hc
  -- `getLast?` of `dropWhile p u` for a nonempty result is `getLast? u`
  -- since `dropWhile` removes a prefix only.
  have key : ∀ (u : List Char) (c : Char),
      (u.dropWhile Char.isWhitespace).getLast? = some c →
      u.getLast? = some c := by
    intro u c hc
    have hsplit := List.takeWhile_append_dropWhile Char.isWhitespace u
    have : u.getLast? = ((u.takeWhile Char.isWhitespace) ++
        (u.dropWhile Char.isWhitespace)).getLast? := by rw [hsplit]
    rw [this, List.getLast?_append, hc]
    rfl
  have h2 := key _ _ hc
  rw [List.getLast?_reverse] at h2
  have h3 := List.head?_dropWhile_not Char.isWhitespace l
  rw [h2] at h3
  simpa using h3

/-- The last character of `pyStrip l` is never whitespace. -/
theorem pyStrip_getLast (l : List Char) :
    ∀ c, (pyStrip l).getLast? = some c → c.isWhitespace = false := by
  intro c hc
  unfold pyStrip at hc
  rw [List.getLast?_reverse] at hc
  have h3 := List.head?_dropWhile_not Char.isWhitespace
    (l.dropWhile Char.isWhitespace).reverse
  rw [hc] at h3
  simpa using h3

/-- Title normalization always lands in the normal form. -/
theorem normalizeTitle_isNormal (t : List Char) :
    isNormalTitle (normalizeTitle t) := by
  unfold normalizeTitle clean_text
  set u := pyLower t with hu
  have hspace : (' ' : Char).isWhitespace = true := by decide
  refine ⟨?_, ?_, ?_, ?_⟩
  · intro c hc
    have h1 := pyStrip_subset _ c hc
    rcases collapseSpaces_mem _ c h1 with h2 | ⟨h2, h3⟩
    · exact Or.inl h2
    · rcases collapseNonAlnum_mem _ c h2 with h4 | ⟨h4, h5⟩
      · exact Or.inl h4
      · right
        have halnum : (c.isAlpha || c.isDigit) = true := by
          simp only [isAlnumOrSpace, Bool.or_eq_true] at h5
          rcases h5 with h5 | h5
          · simpa using h5
          · rw [h5] at h3
            exact absurd h3 (by simp)
        refine ⟨halnum, ?_⟩
        obtain ⟨x, _, he⟩ := List.mem_map.mp h4
        rw [← he]
        exact toLower_idem x
  · apply pyStrip_chain
    exact (collapseSpaces_chain _).imp
      (fun a b hab hc => hab ⟨by rw [hc.1]; exact hspace, by rw [hc.2]; exact hspace⟩)
  · intro hc
    have := pyStrip_head _ _ hc
    rw [hspace] at this
    exact absurd this (by simp)
  · intro hc
    have := pyStrip_getLast _ _ hc
    rw [hspace] at this
    exact absurd this (by simp)

/-- Title normalization is the identity on the normal form. -/
theorem normalizeTitle_id (w : List Char) (h : isNormalTitle w) :
    normalizeTitle w = w := by
  obtain ⟨hgood, hchain, hhead, hlast⟩ := h
  have hws : ∀ c ∈ w, c.isWhitespace = true → c = ' ' := by
    intro c hc hwsc
    rcases hgood c hc with h1 | ⟨h2, _⟩
    · exact h1
    · rw [ws_not_alnum c hwsc] at h2
      exact absurd h2 (by simp)
  have hlow : pyLower w = w := by
    unfold pyLower
    have : ∀ c ∈ w, c.toLower = id c := by
      intro c hc
      rcases hgood c hc with h1 | ⟨_, h2⟩
      · rw [h1]
        decide
      · exact h2
    rw [List.map_congr_left this, List.map_id]
  have halnum : ∀ c ∈ w, isAlnumOrSpace c = true := by
    intro c hc
    rcases hgood c hc with h1 | ⟨h2, _⟩
    · rw [h1]
      decide
    · simp only [isAlnumOrSpace, Bool.or_eq_true]
      exact Or.inl (by simpa using h2)
  unfold normalizeTitle clean_text
  rw [hlow, collapseNonAlnum_id w halnum, collapseSpaces_id w hws hchain]
  apply pyStrip_id
  · intro c hc
    by_contra hcw
    have : c = ' ' := hws c (by
      have := List.mem_of_mem_head? hc
      exact this) (by simpa using hcw)
    rw [this] at hc
    exact hhead hc
  · intro c hc
    by_contra hcw
    have : c = ' ' := hws c (List.mem_of_mem_getLast? hc) (by simpa using hcw)
    rw [this] at hc
    exact hlast hc

/-- C8: title normalization — lowercasing followed by `clean_text` — is
idempotent: `normalize (normalize t) = normalize t` for every string. -/
theorem c8_normalize_idempotent (t : List Char) :
    normalizeTitle (normalizeTitle t) = normalizeTitle t :=
  normalizeTitle_id _ (normalizeTitle_isNormal t)

end Marketscrape
